import Mathlib

/-!
Shallow embedding of the luaproc preprocessor (src/main.rs) and proofs about
its specification claims.

The Rust program is a single file: a regex lexer (`lex_single_token`,
`lex_whole_input`), a recursive macro expander (`get_macros` with helpers
`apply_value_macro_once`, `apply_value_macros`, `apply_func_macro_once`,
`eval_pastes`), a renderer (`render_tokens_as_string`) and a driver (`main`).

Conventions of the embedding:
* Rust `Vec<Token>` becomes `List Token`; string values stay `String`.
* The mutable expander loop of `get_macros` (index `i`, accumulator
  `new_tokens`, mutable macro tables) becomes the explicit-state function
  `getMacrosLoop`, with a fuel parameter because the Rust recursion can
  diverge on self-referential macros (`none` = out of fuel or panic).
* A Rust `panic!`/`unwrap` failure is `Except.error ()` in helpers that can
  panic, and is folded into `none` at the `getMacrosLoop` level.
* All indices mirror the Rust cursor arithmetic: at the top of each loop
  iteration the Rust code does `i += 1` and reads `tokens[i - 1]`; we keep
  the cursor `c` for the current token and `ri = c + 1` for the Rust `i`.
-/

inductive TokenKind where
  | Name
  | MacroName
  | Property
  | Number
  | String
  | Special
  | Brace
  | Delimiter
  | DefineDirective
  | Ifdef
  | Ifndef
  | Endif
  | Undef
  | EndDefine
  | Newline
  | Stringify
  | Vararg
  | TaggedVararg
  | Paste
  deriving DecidableEq

structure Token where
  kind : TokenKind
  value : String
  deriving DecidableEq

/-- Rust struct `ValueMacro { name, value }`. -/
structure ValueMacroDef where
  name : String
  value : List Token
  deriving DecidableEq

/-- Rust struct `FunctionMacro { name, params, value }`. -/
structure FunctionMacroDef where
  name : String
  params : List String
  value : List Token
  deriving DecidableEq

/-- Rust `acc.ends_with("\n")` (the needle is the single newline char). -/
def endsWithNewline (s : String) : Bool :=
  s.data.getLast? == some '\n'

/-- Embeds `render_tokens_as_string` (main.rs:452-463).  The Rust code maps
tokens to their `value`, then `reduce`s, joining with a space unless the
accumulator ends in a newline, and finally calls `.unwrap()`: on an empty
token list `reduce` yields `None` and the program panics, which we model as
`none`. -/
def render_tokens_as_string (tokens : List Token) : Option String :=
  match tokens.map Token.value with
  | [] => none
  | v :: vs =>
    some (vs.foldl (fun acc v => if endsWithNewline acc then acc ++ v else acc ++ " " ++ v) v)

/-- Rust `format!("{:?}", s)` on a `String`: quote and escape. -/
def rustEscapeChar (c : Char) : List Char :=
  if c = '"' then ['\\', '"']
  else if c = '\\' then ['\\', '\\']
  else if c = '\n' then ['\\', 'n']
  else if c = '\r' then ['\\', 'r']
  else if c = '\t' then ['\\', 't']
  else [c]

def rustDebugFormat (s : String) : String :=
  ⟨'"' :: (s.data.flatMap rustEscapeChar ++ ['"'])⟩

/-- Rust byte-slice `value[1..value.len()-1]` (ASCII token text). -/
def sliceInner (s : String) : String :=
  ⟨(s.data.drop 1).dropLast⟩

/-- Inner scan of `eval_pastes` (main.rs:150-160): starting after a `Name`
token, repeatedly absorb `## Name` pairs, returning the collected lexemes and
the unconsumed remainder. -/
def pasteRun : List String → List Token → List String × List Token
  | parts, t1 :: t2 :: rest =>
    if t1.kind == TokenKind.Paste && t2.kind == TokenKind.Name then
      pasteRun (parts ++ [t2.value]) rest
    else (parts, t1 :: t2 :: rest)
  | parts, rest => (parts, rest)

/-- Outer loop of `eval_pastes` (main.rs:142-171), fuelled (each outer
iteration consumes at least one token, so `length + 1` fuel suffices). -/
def evalPastesLoop : Nat → List Token → List Token
  | 0, rest => rest
  | _ + 1, [] => []
  | fuel + 1, t :: rest =>
    if t.kind == TokenKind.Name then
      let pr := pasteRun [t.value] rest
      ⟨TokenKind.Name, String.join pr.1⟩ :: evalPastesLoop fuel pr.2
    else t :: evalPastesLoop fuel rest

/-- Embeds `eval_pastes` (main.rs:142-171). -/
def eval_pastes (tokens : List Token) : List Token :=
  evalPastesLoop (tokens.length + 1) tokens

/-- Embeds `apply_value_macro_once` (main.rs:345-363).  `Except.error ()`
models the panic inside the Stringify arm when the macro body is empty
(`render_tokens_as_string(..).unwrap()` on no tokens); `.ok none` is the
Rust `None` (no match). -/
def apply_value_macro_once (input : List Token) (vmac : ValueMacroDef) :
    Except Unit (Option (List Token)) :=
  match input with
  | [] => .ok none
  | token :: rest =>
    if token.kind == TokenKind.MacroName && token.value == vmac.name then
      if (match rest with | next :: _ => next.value == "=" | [] => false) then
        .ok (some [token])
      else .ok (some vmac.value)
    else if token.kind == TokenKind.Stringify && sliceInner token.value == vmac.name then
      match render_tokens_as_string vmac.value with
      | none => .error ()
      | some s => .ok (some [⟨TokenKind.String, rustDebugFormat s⟩])
    else if token.kind == TokenKind.Delimiter &&
        (match rest with
         | next :: _ => next.value == "__VA_ARGS__" || next.value == "#..."
         | [] => false) then
      if vmac.value.length != 0 then .ok (some [token]) else .ok none
    else if token.kind == TokenKind.TaggedVararg then
      .ok (some vmac.value)
    else .ok none

/-- Embeds `apply_value_macros` (main.rs:365-386): one pass over the whole
body, rewriting every matching occurrence.  The lookahead `input[i + 1]` is
the head of the tail in this list traversal. -/
def apply_value_macros (input : List Token) (vmac : ValueMacroDef) :
    Except Unit (List Token) :=
  match input with
  | [] => .ok []
  | token :: rest => do
    let piece ←
      if token.kind == TokenKind.Name && token.value == vmac.name then
        if (match rest with | next :: _ => next.value == "=" | [] => false) then
          pure [token]
        else pure vmac.value
      else if token.kind == TokenKind.Stringify && sliceInner token.value == vmac.name then
        match render_tokens_as_string vmac.value with
        | none => .error ()
        | some s => pure [⟨TokenKind.String, rustDebugFormat s⟩]
      else if token.kind == TokenKind.Delimiter &&
          (match rest with
           | next :: _ => next.value == "__VA_ARGS__" || next.value == "#..."
           | [] => false) then
        if vmac.value.length != 0 then pure [token] else pure []
      else if token.kind == TokenKind.TaggedVararg then
        pure vmac.value
      else pure [token]
    let more ← apply_value_macros rest vmac
    pure (piece ++ more)

def isOpenerVal (v : String) : Bool :=
  v == "(" || v == "\x7b" || v == "[" || v == "function" || v == "do" || v == "then"

def isCloserVal (v : String) : Bool :=
  v == ")" || v == "\x7d" || v == "]" || v == "end"

/-- Push a token onto the last argument group (`args[l - 1].push(cur)`). -/
def pushLast (args : List (List Token)) (t : Token) : List (List Token) :=
  args.dropLast ++ [args.getLastD [] ++ [t]]

/-- The balanced argument scan of `apply_func_macro_once` (main.rs:397-416):
walks the tokens after the opener, splitting on level-0 delimiters, counting
nesting and stopping when the level would reach `-1`.  Returns the argument
groups and the Rust counter `i` (tokens consumed including the closer). -/
def scanArgs : List Token → Int → List (List Token) → Nat → List (List Token) × Nat
  | [], _, args, i => (args, i)
  | cur :: rest, nesting, args, i =>
    let i := i + 1
    if cur.kind == TokenKind.Delimiter && nesting == 0 then
      scanArgs rest nesting (args ++ [[]]) i
    else
      let nesting' :=
        if isOpenerVal cur.value then nesting + 1
        else if isCloserVal cur.value then nesting - 1
        else nesting
      if isCloserVal cur.value && nesting' == -1 then (args, i)
      else scanArgs rest nesting' (pushLast args cur) i

/-- The comma-separated variadic body built for `__VA_ARGS__`
(main.rs:422-432): arguments joined with `,` delimiters, no trailing comma. -/
def commaSepArgs : List (List Token) → List Token
  | [] => []
  | a :: rest => a ++ rest.flatMap (fun b => ⟨TokenKind.Delimiter, ","⟩ :: b)

/-- One parameter-binding pass of the `zip(params, args)` fold
(main.rs:419-445): the variadic parameter `...` binds `__VA_ARGS__` to the
remaining arguments from index `k`, any other parameter binds positionally. -/
def substOne (args : List (List Token)) (k : Nat) (param : String)
    (arg : List Token) (value : List Token) : Except Unit (List Token) :=
  let vmac : ValueMacroDef :=
    if param == "..." then ⟨"__VA_ARGS__", commaSepArgs (args.drop k)⟩
    else ⟨param, arg⟩
  apply_value_macros value vmac

def substAll (args : List (List Token)) :
    List (String × List Token) → Nat → List Token → Except Unit (List Token)
  | [], _, value => .ok value
  | (p, a) :: rest, k, value =>
    match substOne args k p a value with
    | .error _ => .error ()
    | .ok v => substAll args rest (k + 1) v

/-- Embeds `apply_func_macro_once` (main.rs:388-450).  On a match it returns
the substituted body and the Rust `i + 2` cursor advance. -/
def apply_func_macro_once (input : List Token) (fmac : FunctionMacroDef) :
    Except Unit (Option (List Token × Nat)) :=
  match input with
  | [] => .ok none
  | token :: rest =>
    if token.kind == TokenKind.MacroName && token.value == fmac.name then
      match rest with
      | [] => .ok none
      | lparen :: rest2 =>
        if lparen.value == "(" || lparen.value == "[" || lparen.value == "\x7b" then
          let sa := scanArgs rest2 0 [[]] 0
          match substAll sa.1 (fmac.params.zip sa.1) 0 fmac.value with
          | .error _ => .error ()
          | .ok value => .ok (some (value, sa.2 + 2))
        else .ok none
    else .ok none

/-- The `for value_macro in value_macros.clone()` loop body (main.rs:211-219):
try each value macro in order, stop at the first match; a panic aborts. -/
def firstValueMatch (input : List Token) :
    List ValueMacroDef → Except Unit (Option (List Token))
  | [] => .ok none
  | vmac :: rest =>
    match apply_value_macro_once input vmac with
    | .error _ => .error ()
    | .ok none => firstValueMatch input rest
    | .ok (some r) => .ok (some r)

/-- The `for func_macro in func_macros.clone()` loop (main.rs:221-230). -/
def firstFuncMatch (input : List Token) :
    List FunctionMacroDef → Except Unit (Option (List Token × Nat))
  | [] => .ok none
  | fmac :: rest =>
    match apply_func_macro_once input fmac with
    | .error _ => .error ()
    | .ok none => firstFuncMatch input rest
    | .ok (some r) => .ok (some r)

/-- The `#undef` branch (main.rs:184-210).  The Rust code pops the pushed
token and advances past the name before checking its kind; a non-MacroName
name triggers `continue` (the `Bool` result).  Both macro tables are filtered
by name. -/
def undefStep (tokens : List Token) (token : Token) (ri : Nat)
    (acc : List Token) (vms : List ValueMacroDef) (fms : List FunctionMacroDef) :
    Nat × List Token × List ValueMacroDef × List FunctionMacroDef × Bool :=
  if token.kind == TokenKind.Undef then
    match tokens[ri]? with
    | none => (ri, acc, vms, fms, false)
    | some name =>
      if name.kind != TokenKind.MacroName then
        (ri + 1, acc.dropLast, vms, fms, true)
      else
        (ri + 1, acc.dropLast,
         vms.filter (fun v => !(v.name == name.value)),
         fms.filter (fun f => !(f.name == name.value)), false)
  else (ri, acc, vms, fms, false)

/-- The skip loop of the `#ifdef` branch (main.rs:254-259): advance the Rust
counter once per token up to and including the first `#endif`. -/
def skipToEndifGo : List Token → Nat → Nat
  | [], i => i
  | tok :: rest, i => if tok.kind == TokenKind.Endif then i + 1 else skipToEndifGo rest (i + 1)

/-- The `#ifdef`/`#ifndef` branch (main.rs:231-264): pop the directive token,
require a MacroName, test membership in either macro table (negated for
`#ifndef`), skip to `#endif` when false, and advance past the name. -/
def ifdefStep (tokens : List Token) (isIfndef : Bool) (ri : Nat)
    (acc : List Token) (vms : List ValueMacroDef) (fms : List FunctionMacroDef) :
    Nat × List Token :=
  match tokens[ri]? with
  | none => (ri, acc)
  | some var =>
    let acc := acc.dropLast
    if var.kind != TokenKind.MacroName then (ri, acc)
    else
      let contains := vms.any (fun v => v.name == var.value) ||
                      fms.any (fun f => f.name == var.value)
      let contains := if isIfndef then !contains else contains
      let ri2 := if !contains then skipToEndifGo (tokens.drop (ri + 1)) ri else ri
      (ri2 + 1, acc)

/-- Rust `slice::split(|t| t.kind == Delimiter)` on the parameter tokens. -/
def splitOnDelimiter : List Token → List (List Token)
  | [] => [[]]
  | t :: rest =>
    if t.kind == TokenKind.Delimiter then [] :: splitOnDelimiter rest
    else
      match splitOnDelimiter rest with
      | g :: gs => (t :: g) :: gs
      | [] => [[t]]

/-- The `#define` branch (main.rs:269-340).  Returns the next cursor, the
accumulator (popped when a definition was recorded) and the updated tables.
The dead `all_names` flag of the source is computed and dropped there, so it
is omitted.  A `#define NAME!` followed by a Newline records an empty value
macro (presence flag); the subsequent `=` test then fails and the branch
ends. -/
def defineStep (tokens : List Token) (ri : Nat) (acc : List Token)
    (vms : List ValueMacroDef) (fms : List FunctionMacroDef) :
    Nat × List Token × List ValueMacroDef × List FunctionMacroDef :=
  match tokens[ri]? with
  | none => (ri, acc, vms, fms)
  | some name =>
    if name.kind != TokenKind.MacroName then (ri, acc, vms, fms)
    else
      match tokens[ri + 1]? with
      | none => (ri, acc, vms, fms)
      | some eq =>
        if eq.value == "(" then
          let params_iter := (tokens.drop (ri + 2)).takeWhile (fun t => t.value != ")")
          let p := params_iter.length
          let names := (splitOnDelimiter params_iter).filterMap
            (fun sub => sub.head?.map Token.value)
          match tokens[ri + p + 3]? with
          | none => (ri + p, acc, vms, fms)
          | some eq2 =>
            if eq2.value != "=" then (ri + p, acc, vms, fms)
            else
              let value := (tokens.drop (ri + p + 4)).takeWhile
                (fun t => t.kind != TokenKind.EndDefine)
              (ri + p + 5 + value.length, acc.dropLast, vms,
               fms ++ [⟨name.value, names, value⟩])
        else if eq.kind == TokenKind.Newline then
          (ri + 2, acc.dropLast, vms ++ [⟨name.value, []⟩], fms)
        else if eq.value != "=" then (ri, acc, vms, fms)
        else
          let value := (tokens.drop (ri + 2)).takeWhile
            (fun t => t.kind != TokenKind.EndDefine)
          (ri + 3 + value.length, acc.dropLast, vms ++ [⟨name.value, value⟩], fms)

/-- The expander loop of `get_macros` (main.rs:173-343), one fuel unit per
iteration and per recursive re-scan.  State: the fixed token buffer, cursor
`c` (the Rust `i - 1`), the output accumulator and both macro tables.
`none` means fuel exhaustion (the Rust code would diverge) or a panic.

Per iteration, faithfully in source order: push the current token; handle
`#undef` (which may `continue`); try every value macro at `drop (ri - 1)`
(on a match: pop, recursively expand the result, paste-resolve, extend); try
every function macro at `drop ri` (on a match: recursively expand, extend,
advance); then the `#ifdef`/`#ifndef`, `#endif` and `#define` branches. -/
def getMacrosLoop :
    Nat → List Token → Nat → List Token → List ValueMacroDef → List FunctionMacroDef →
    Option (List Token × List ValueMacroDef × List FunctionMacroDef)
  | 0, _, _, _, _, _ => none
  | fuel + 1, tokens, c, acc, vms, fms =>
    match tokens[c]? with
    | none => some (acc, vms, fms)
    | some token =>
      let acc1 := acc ++ [token]
      match undefStep tokens token (c + 1) acc1 vms fms with
      | (ri, acc2, vms1, fms1, true) => getMacrosLoop fuel tokens ri acc2 vms1 fms1
      | (ri, acc2, vms1, fms1, false) =>
        match firstValueMatch (tokens.drop (ri - 1)) vms1 with
        | .error _ => none
        | .ok vres =>
          let afterValue :
              Option (List Token × List ValueMacroDef × List FunctionMacroDef) :=
            match vres with
            | none => some (acc2, vms1, fms1)
            | some r =>
              match getMacrosLoop fuel r 0 [] vms1 fms1 with
              | none => none
              | some (res, vms2, fms2) =>
                some (acc2.dropLast ++ eval_pastes res, vms2, fms2)
          match afterValue with
          | none => none
          | some (acc3, vms2, fms2) =>
            match firstFuncMatch (tokens.drop ri) fms2 with
            | .error _ => none
            | .ok fres =>
              let afterFunc :
                  Option (Nat × List Token × List ValueMacroDef × List FunctionMacroDef) :=
                match fres with
                | none => some (ri, acc3, vms2, fms2)
                | some (r, ni) =>
                  match getMacrosLoop fuel r 0 [] vms2 fms2 with
                  | none => none
                  | some (res, vms3, fms3) =>
                    some (ri + ni, acc3 ++ eval_pastes res, vms3, fms3)
              match afterFunc with
              | none => none
              | some (ri2, acc4, vms3, fms3) =>
                if token.kind == TokenKind.Ifdef || token.kind == TokenKind.Ifndef then
                  let st := ifdefStep tokens (token.kind == TokenKind.Ifndef) ri2 acc4 vms3 fms3
                  getMacrosLoop fuel tokens st.1 st.2 vms3 fms3
                else if token.kind == TokenKind.Endif then
                  getMacrosLoop fuel tokens ri2 acc4.dropLast vms3 fms3
                else if token.kind == TokenKind.DefineDirective then
                  let st := defineStep tokens ri2 acc4 vms3 fms3
                  getMacrosLoop fuel tokens st.1 st.2.1 st.2.2.1 st.2.2.2
                else getMacrosLoop fuel tokens ri2 acc4 vms3 fms3

/-- Embeds `get_macros` (main.rs:173-343), started at cursor 0 with an empty
accumulator; also returns the final macro tables (the Rust `&mut` output). -/
def get_macros (fuel : Nat) (tokens : List Token)
    (vms : List ValueMacroDef) (fms : List FunctionMacroDef) :
    Option (List Token × List ValueMacroDef × List FunctionMacroDef) :=
  getMacrosLoop fuel tokens 0 [] vms fms

/-!
The lexer (main.rs:52-140).  Each Rust regex rule, applied anchored at the
start of the remaining input, is embedded as a matcher on `List Char` that
returns the length of the match (the rules are all deterministic: greedy
character-class repetition followed by required literals, with no
backtracking across alternatives).  `lex_single_token` tries the rules in
the source order and emits a token whose `value` is the matched prefix.
-/

/-- Regex character class `[a-zA-Z_]`. -/
def isAlphaU (c : Char) : Bool :=
  ('a' ≤ c && c ≤ 'z') || ('A' ≤ c && c ≤ 'Z') || c == '_'

/-- Regex `\w`, i.e. `[a-zA-Z0-9_]`. -/
def isWordC (c : Char) : Bool :=
  isAlphaU c || ('0' ≤ c && c ≤ '9')

/-- Regex `\s` of the Rust regex crate: `[ \t\n\v\f\r]`. -/
def isSpaceC (c : Char) : Bool :=
  c == ' ' || c == '\t' || c == '\n' || c == '\x0b' || c == '\x0c' || c == '\r'

def isDigitC (c : Char) : Bool :=
  '0' ≤ c && c ≤ '9'

/-- Length of the leading run of characters satisfying `p`. -/
def countWhile (p : Char → Bool) : List Char → Nat
  | [] => 0
  | c :: r => if p c then countWhile p r + 1 else 0

/-- Anchored literal match: `some pat.length` iff `pat` is a prefix. -/
def matchLit (pat : List Char) (cs : List Char) : Option Nat :=
  if pat.isPrefixOf cs then some pat.length else none

/-- Rule `^(\.|:)\s*[a-zA-Z_]\w*` (Property). -/
def matchProperty (cs : List Char) : Option Nat :=
  match cs with
  | c :: r =>
    if c == '.' || c == ':' then
      let s := countWhile isSpaceC r
      match r.drop s with
      | a :: r3 => if isAlphaU a then some (1 + s + 1 + countWhile isWordC r3) else none
      | [] => none
    else none
  | [] => none

/-- Rule `^(#[a-zA-Z_]\w*#)` (Stringify). -/
def matchStringify (cs : List Char) : Option Nat :=
  match cs with
  | h :: a :: r =>
    if h == '#' && isAlphaU a then
      let w := countWhile isWordC r
      match r.drop w with
      | e :: _ => if e == '#' then some (2 + w + 1) else none
      | [] => none
    else none
  | _ => none

/-- Rule `^[a-zA-Z_]\w*!` (MacroName). -/
def matchMacroName (cs : List Char) : Option Nat :=
  match cs with
  | a :: r =>
    if isAlphaU a then
      let w := countWhile isWordC r
      match r.drop w with
      | e :: _ => if e == '!' then some (1 + w + 1) else none
      | [] => none
    else none
  | [] => none

/-- Rule `^[a-zA-Z_]\w*` (Name). -/
def matchName (cs : List Char) : Option Nat :=
  match cs with
  | a :: r => if isAlphaU a then some (1 + countWhile isWordC r) else none
  | [] => none

/-- Rule `^-?\d+(\.\d+)?` (Number). -/
def matchNumber (cs : List Char) : Option Nat :=
  let core : List Char → Option Nat := fun r =>
    let d := countWhile isDigitC r
    if d == 0 then none
    else
      match r.drop d with
      | dot :: r2 =>
        if dot == '.' then
          let d2 := countWhile isDigitC r2
          if d2 == 0 then some d else some (d + 1 + d2)
        else some d
      | [] => some d
  match cs with
  | '-' :: r => (core r).map (· + 1)
  | r => core r

/-- Body scan of rule `^"([^"\\]|\\.)*"` (String): consumed length including
the closing quote, `none` when the rule fails.  `\\.`: the dot does not match
a newline; `[^"\\]` does. -/
def matchStringBody : List Char → Option Nat
  | [] => none
  | '"' :: _ => some 1
  | '\\' :: d :: r => if d == '\n' then none else (matchStringBody r).map (· + 2)
  | '\\' :: [] => none
  | _ :: r => (matchStringBody r).map (· + 1)

def matchString (cs : List Char) : Option Nat :=
  match cs with
  | '"' :: r => (matchStringBody r).map (· + 1)
  | _ => none

/-- Regex class `[+\-*/!@#$%^&:=~<>?.]`. -/
def isSpecialC (c : Char) : Bool :=
  c == '+' || c == '-' || c == '*' || c == '/' || c == '!' || c == '@' ||
  c == '#' || c == '$' || c == '%' || c == '^' || c == '&' || c == ':' ||
  c == '=' || c == '~' || c == '<' || c == '>' || c == '?' || c == '.'

/-- Rule `^[+\-*/!@#$%^&:=~<>?.]+` (Special). -/
def matchSpecial (cs : List Char) : Option Nat :=
  let k := countWhile isSpecialC cs
  if k == 0 then none else some k

/-- Rule `^[()\[\]{}]` (Brace). -/
def matchBrace (cs : List Char) : Option Nat :=
  match cs with
  | c :: _ =>
    if c == '(' || c == ')' || c == '[' || c == ']' || c == '\x7b' || c == '\x7d' then
      some 1
    else none
  | [] => none

/-- Rule `^[,;]` (Delimiter). -/
def matchDelimiter (cs : List Char) : Option Nat :=
  match cs with
  | c :: _ => if c == ',' || c == ';' then some 1 else none
  | [] => none

/-- One unit `\r?\n[\t ]*` of the Newline rule. -/
def nlUnit (cs : List Char) : Option Nat :=
  match cs with
  | '\r' :: '\n' :: r => some (2 + countWhile (fun c => c == '\t' || c == ' ') r)
  | '\n' :: r => some (1 + countWhile (fun c => c == '\t' || c == ' ') r)
  | _ => none

/-- Greedy repetition of further `\r?\n[\t ]*` units, fuelled by the input
length (each unit consumes at least one character). -/
def nlUnits : Nat → List Char → Nat
  | 0, _ => 0
  | fuel + 1, cs =>
    match nlUnit cs with
    | none => 0
    | some n => n + nlUnits fuel (cs.drop n)

/-- Rule `^(\r?\n[\t ]*)+` (Newline). -/
def matchNewline (cs : List Char) : Option Nat :=
  match nlUnit cs with
  | none => none
  | some n => some (n + nlUnits cs.length (cs.drop n))

/-- Try one rule, else fall through to the rest of the table. -/
def ruleOr (m : Option Nat) (k : TokenKind) (rest : Option (Nat × TokenKind)) :
    Option (Nat × TokenKind) :=
  match m with
  | some n => some (n, k)
  | none => rest

/-- The ordered rule table of `lex_single_token` (main.rs:53-110): the first
rule that matches wins. -/
def tryRules (cs : List Char) : Option (Nat × TokenKind) :=
  ruleOr (matchProperty cs) TokenKind.Property
  (ruleOr (matchLit "...".data cs) TokenKind.Vararg
  (ruleOr (matchLit "#...".data cs) TokenKind.TaggedVararg
  (ruleOr (matchStringify cs) TokenKind.Stringify
  (ruleOr (matchLit "##".data cs) TokenKind.Paste
  (ruleOr (matchMacroName cs) TokenKind.MacroName
  (ruleOr (matchName cs) TokenKind.Name
  (ruleOr (matchNumber cs) TokenKind.Number
  (ruleOr (matchString cs) TokenKind.String
  (ruleOr (matchLit "#define".data cs) TokenKind.DefineDirective
  (ruleOr (matchLit "#ifdef".data cs) TokenKind.Ifdef
  (ruleOr (matchLit "#ifndef".data cs) TokenKind.Ifndef
  (ruleOr (matchLit "#endif".data cs) TokenKind.Endif
  (ruleOr (matchLit "#undef".data cs) TokenKind.Undef
  (ruleOr (matchLit "#end".data cs) TokenKind.EndDefine
  (ruleOr (matchSpecial cs) TokenKind.Special
  (ruleOr (matchBrace cs) TokenKind.Brace
  (ruleOr (matchDelimiter cs) TokenKind.Delimiter
  (ruleOr (matchNewline cs) TokenKind.Newline
   none))))))))))))))))))

/-- Embeds `lex_single_token` (main.rs:52-121): the remaining input after the
match and the token made of the matched prefix. -/
def lex_single_token (cs : List Char) : Option (List Char × Token) :=
  match tryRules cs with
  | none => none
  | some (n, kind) => some (cs.drop n, ⟨kind, ⟨cs.take n⟩⟩)

/-- Rust `trim_start_matches(|c| c == ' ' || c == '\t')`. -/
def trimSpTab (cs : List Char) : List Char :=
  cs.dropWhile (fun c => c == ' ' || c == '\t')

/-- The `while !remaining.is_empty()` loop of `lex_whole_input`
(main.rs:123-140), fuelled by the input length (every rule consumes at least
one character, so `length + 1` fuel suffices).  `none` is the Rust lex
failure. -/
def lexLoop : Nat → List Char → Option (List Token)
  | 0, _ => none
  | _ + 1, [] => some []
  | fuel + 1, rem =>
    match lex_single_token rem with
    | none => none
    | some (rest, t) =>
      match lexLoop fuel (trimSpTab rest) with
      | none => none
      | some ts => some (t :: ts)

/-- Embeds `lex_whole_input` (main.rs:123-140). -/
def lex_whole_input (s : String) : Option (List Token) :=
  lexLoop (s.data.length + 1) (trimSpTab s.data)

/-- Whitespace characters: those the lexer elides between tokens or that
the renderer inserts (space, tab) together with line breaks. -/
def isWsChar (c : Char) : Bool :=
  c == ' ' || c == '\t' || c == '\n' || c == '\r'

/-- Modelled from the spec: the comparison "modulo whitespace
normalisation" of the no-macro idempotence property is stated by erasing
every whitespace character from both sides before comparing. -/
def stripWhitespace (s : String) : String :=
  ⟨s.data.filter (fun c => !(isWsChar c))⟩

/-- The line-continuation fold of `main` (main.rs:490-491): delete every
backslash immediately followed by `\r?\n`. -/
def foldLineContinuations : List Char → List Char
  | '\\' :: '\r' :: '\n' :: r => foldLineContinuations r
  | '\\' :: '\n' :: r => foldLineContinuations r
  | c :: r => c :: foldLineContinuations r
  | [] => []

/-- Diagnostics printed by `main`; `usage` goes to stdout, the rest to
stderr. -/
inductive Diag where
  | usage
  | openErr
  | readErr
  | lexFail
  | createErr
  | writeErr
  | styluaErr
  deriving DecidableEq

/-- The file-system outcome `main` observes for its input file. -/
inductive FileInput where
  | openFail
  | readFail
  | content (s : String)
  deriving DecidableEq

/-- Result of a `main` run.  Every Rust `return` exits the process normally
(status 0); `panicked` is an `unwrap` panic (abnormal, non-zero status);
`noFuel` marks expander fuel exhaustion, which only abstracts Rust
divergence. -/
inductive MainResult where
  | panicked
  | noFuel
  | exited (code : Nat) (diags : List Diag) (outLua : Option String)
  deriving DecidableEq

/-- Embeds `main` (main.rs:465-525) with the file system and the `stylua`
invocation abstracted into parameters.  Control flow mirrors the source: the
usage check, open/read failures, the line fold, lexing (failure prints
`"Tokenization Failed"`), `get_macros` with empty tables, rendering (panics
on an empty token list), creating and writing `out.lua` (a write failure
does not return early), and the formatter call. -/
def run_main (fuel : Nat) (args : List String) (file : FileInput)
    (createOk writeOk styluaOk : Bool) : MainResult :=
  if args.length < 2 then .exited 0 [.usage] none
  else
    match file with
    | .openFail => .exited 0 [.openErr] none
    | .readFail => .exited 0 [.readErr] none
    | .content s =>
      let folded : String := ⟨foldLineContinuations s.data⟩
      match lex_whole_input folded with
      | none => .exited 0 [.lexFail] none
      | some tokens =>
        match get_macros fuel tokens [] [] with
        | none => .noFuel
        | some (out, _, _) =>
          match render_tokens_as_string out with
          | none => .panicked
          | some result =>
            if !createOk then .exited 0 [.createErr] none
            else
              let diags := (if writeOk then [] else [Diag.writeErr]) ++
                           (if styluaOk then [] else [Diag.styluaErr])
              .exited 0 diags (if writeOk then some result else none)

/-- Exit code of a normal process exit. -/
def exitCodeOf : MainResult → Option Nat
  | .exited c _ _ => some c
  | _ => none

/-!
### Helper lemmas about the expander

`controlKinds` below are the token kinds whose loop branches consume extra
tokens or mutate the macro tables; every other token is pushed unchanged when
no macro matches at its position.
-/

theorem firstValueMatch_nil (input : List Token) :
    firstValueMatch input [] = .ok none := rfl

theorem firstFuncMatch_nil (input : List Token) :
    firstFuncMatch input [] = .ok none := rfl

theorem apply_value_macro_once_skip (t : Token) (rest : List Token)
    (vmac : ValueMacroDef)
    (h1 : t.kind ≠ TokenKind.MacroName) (h2 : t.kind ≠ TokenKind.Stringify)
    (h3 : t.kind ≠ TokenKind.Delimiter) (h4 : t.kind ≠ TokenKind.TaggedVararg) :
    apply_value_macro_once (t :: rest) vmac = .ok none := by
  simp [apply_value_macro_once, h1, h2, h3, h4]

theorem firstValueMatch_skip (t : Token) (rest : List Token)
    (vms : List ValueMacroDef)
    (h1 : t.kind ≠ TokenKind.MacroName) (h2 : t.kind ≠ TokenKind.Stringify)
    (h3 : t.kind ≠ TokenKind.Delimiter) (h4 : t.kind ≠ TokenKind.TaggedVararg) :
    firstValueMatch (t :: rest) vms = .ok none := by
  induction vms with
  | nil => rfl
  | cons vmac vms ih =>
    simp [firstValueMatch, apply_value_macro_once_skip t rest vmac h1 h2 h3 h4, ih]

theorem apply_func_macro_once_nil (fmac : FunctionMacroDef) :
    apply_func_macro_once [] fmac = .ok none := rfl

theorem apply_func_macro_once_skip (t : Token) (rest : List Token)
    (fmac : FunctionMacroDef) (h : t.kind ≠ TokenKind.MacroName) :
    apply_func_macro_once (t :: rest) fmac = .ok none := by
  simp [apply_func_macro_once, h]

theorem firstFuncMatch_skip (input : List Token) (fms : List FunctionMacroDef)
    (h : ∀ t, input.head? = some t → t.kind ≠ TokenKind.MacroName) :
    firstFuncMatch input fms = .ok none := by
  induction fms with
  | nil => rfl
  | cons fmac fms ih =>
    match input with
    | [] => simp [firstFuncMatch, apply_func_macro_once_nil, ih]
    | t :: rest =>
      have ht : t.kind ≠ TokenKind.MacroName := h t rfl
      simp [firstFuncMatch, apply_func_macro_once_skip t rest fmac ht, ih]

/-- If a loop suffix contains none of the control kinds and no macro matches
anywhere in it, the expander loop emits it unchanged and leaves the macro
tables untouched (main.rs:173-343: every such iteration just pushes the
current token and advances by one). -/
theorem getMacrosLoop_emit_id :
    ∀ (fuel : Nat) (tokens : List Token) (c : Nat) (acc : List Token)
      (vms : List ValueMacroDef) (fms : List FunctionMacroDef),
    tokens.length - c < fuel →
    (∀ j, c ≤ j → (hj : j < tokens.length) →
      tokens[j].kind ∉ [TokenKind.DefineDirective, TokenKind.Ifdef,
        TokenKind.Ifndef, TokenKind.Endif, TokenKind.Undef]) →
    (∀ j, c ≤ j → firstValueMatch (tokens.drop j) vms = .ok none) →
    (∀ j, c ≤ j → firstFuncMatch (tokens.drop j) fms = .ok none) →
    getMacrosLoop fuel tokens c acc vms fms = some (acc ++ tokens.drop c, vms, fms) := by
  intro fuel
  induction fuel with
  | zero => intro tokens c acc vms fms hfuel; omega
  | succ fuel ih =>
    intro tokens c acc vms fms hfuel hk hv hf
    by_cases hc : c < tokens.length
    · have hget : tokens[c]? = some tokens[c] := List.getElem?_eq_getElem hc
      have hkind := hk c (Nat.le_refl c) hc
      simp only [List.mem_cons, List.mem_singleton, not_or] at hkind
      obtain ⟨k1, k2, k3, k4, k5, -⟩ := hkind
      have hundef : (tokens[c].kind == TokenKind.Undef) = false :=
        beq_eq_false_iff_ne.mpr k5
      have hifdef : (tokens[c].kind == TokenKind.Ifdef) = false :=
        beq_eq_false_iff_ne.mpr k2
      have hifndef : (tokens[c].kind == TokenKind.Ifndef) = false :=
        beq_eq_false_iff_ne.mpr k3
      have hendif : (tokens[c].kind == TokenKind.Endif) = false :=
        beq_eq_false_iff_ne.mpr k4
      have hdefine : (tokens[c].kind == TokenKind.DefineDirective) = false :=
        beq_eq_false_iff_ne.mpr k1
      have hvc : firstValueMatch (tokens.drop c) vms = .ok none := hv c (Nat.le_refl c)
      have hfc : firstFuncMatch (tokens.drop (c + 1)) fms = .ok none :=
        hf (c + 1) (Nat.le_succ c)
      have hrec := ih tokens (c + 1) (acc ++ [tokens[c]]) vms fms
        (by omega) (fun j hj => hk j (by omega)) (fun j hj => hv j (by omega))
        (fun j hj => hf j (by omega))
      have hdrop : tokens.drop c = tokens[c] :: tokens.drop (c + 1) :=
        List.drop_eq_getElem_cons hc
      simp only [getMacrosLoop, hget, undefStep, hundef, Nat.add_sub_cancel, hvc, hfc,
        hifdef, hifndef, hendif, hdefine, Bool.false_or, Bool.or_self, if_false,
        Bool.false_eq_true, hrec]
      rw [hdrop]
      simp
    · have hge : tokens.length ≤ c := Nat.le_of_not_lt hc
      have hget : tokens[c]? = none := by
        simp [List.getElem?_eq_none hge]
      have hdrop : tokens.drop c = [] := List.drop_eq_nil_of_le hge
      simp [getMacrosLoop, hget, hdrop]

theorem firstValueMatch_nil_input (vms : List ValueMacroDef) :
    firstValueMatch [] vms = .ok none := by
  induction vms with
  | nil => rfl
  | cons v vs ih => simp [firstValueMatch, apply_value_macro_once, ih]

/-- Case split on the seven kinds that no expander branch reacts to. -/
theorem inert_kind_facts (k : TokenKind)
    (h : k ∈ [TokenKind.Name, TokenKind.Number, TokenKind.String,
      TokenKind.Special, TokenKind.Brace, TokenKind.Newline, TokenKind.Property]) :
    k ≠ TokenKind.MacroName ∧ k ≠ TokenKind.Stringify ∧
    k ≠ TokenKind.Delimiter ∧ k ≠ TokenKind.TaggedVararg ∧
    k ∉ [TokenKind.DefineDirective, TokenKind.Ifdef, TokenKind.Ifndef,
      TokenKind.Endif, TokenKind.Undef] ∧
    k ∉ [TokenKind.DefineDirective, TokenKind.Ifdef, TokenKind.Ifndef,
      TokenKind.Endif, TokenKind.Undef, TokenKind.EndDefine,
      TokenKind.Stringify, TokenKind.TaggedVararg, TokenKind.Paste,
      TokenKind.Vararg, TokenKind.MacroName] := by
  fin_cases h <;> decide

/-- Expansion is the identity on token sequences made only of the seven
inert kinds, for any macro tables, which are also left unchanged. -/
theorem getMacros_inert_id (tokens : List Token)
    (hin : ∀ t ∈ tokens, t.kind ∈ [TokenKind.Name, TokenKind.Number,
      TokenKind.String, TokenKind.Special, TokenKind.Brace, TokenKind.Newline,
      TokenKind.Property])
    (vms : List ValueMacroDef) (fms : List FunctionMacroDef)
    (fuel : Nat) (hfuel : tokens.length < fuel) :
    get_macros fuel tokens vms fms = some (tokens, vms, fms) := by
  have hval : ∀ j, firstValueMatch (tokens.drop j) vms = .ok none := by
    intro j
    by_cases hj : j < tokens.length
    · rw [List.drop_eq_getElem_cons hj]
      have hf := inert_kind_facts tokens[j].kind (hin tokens[j] (tokens.getElem_mem hj))
      exact firstValueMatch_skip _ _ _ hf.1 hf.2.1 hf.2.2.1 hf.2.2.2.1
    · rw [List.drop_eq_nil_of_le (Nat.le_of_not_lt hj)]
      exact firstValueMatch_nil_input vms
  have hfun : ∀ j, firstFuncMatch (tokens.drop j) fms = .ok none := by
    intro j
    apply firstFuncMatch_skip
    intro t ht
    by_cases hj : j < tokens.length
    · rw [List.drop_eq_getElem_cons hj] at ht
      simp only [List.head?_cons, Option.some.injEq] at ht
      subst ht
      exact (inert_kind_facts tokens[j].kind (hin tokens[j] (tokens.getElem_mem hj))).1
    · rw [List.drop_eq_nil_of_le (Nat.le_of_not_lt hj)] at ht
      simp at ht
  have := getMacrosLoop_emit_id fuel tokens 0 [] vms fms (by omega)
    (fun j _ hj => (inert_kind_facts tokens[j].kind (hin tokens[j] (tokens.getElem_mem hj))).2.2.2.2.1)
    (fun j _ => hval j) (fun j _ => hfun j)
  simpa [get_macros] using this

/-- C4 counterexample: a lone `#undef` token is pushed and, with no further
token after it, never popped (main.rs:184-186), so the emitted stream
contains a token of kind `Undef`, refuting the output-stream invariant as
stated. -/
theorem c4_counterexample :
    get_macros 5 [⟨TokenKind.Undef, "#undef"⟩] [] [] =
      some ([⟨TokenKind.Undef, "#undef"⟩], [], []) ∧
    TokenKind.Undef ∈ ([⟨TokenKind.Undef, "#undef"⟩] : List Token).map Token.kind := by
  exact ⟨rfl, by decide⟩

/-- C4 (amended): for every environment and every input all of whose tokens
have one of the seven inert kinds (Name, Number, String, Special, Brace,
Newline, Property), the expander emits the input unchanged, leaves both
macro tables unchanged, and consequently the emitted stream contains no
tokens of kinds DefineDirective, Ifdef, Ifndef, Endif, Undef, EndDefine,
Stringify, TaggedVararg, Paste, Vararg, and no MacroName token at all. -/
theorem c4_output_stream_invariant (tokens : List Token)
    (hin : ∀ t ∈ tokens, t.kind ∈ [TokenKind.Name, TokenKind.Number,
      TokenKind.String, TokenKind.Special, TokenKind.Brace, TokenKind.Newline,
      TokenKind.Property])
    (vms : List ValueMacroDef) (fms : List FunctionMacroDef)
    (fuel : Nat) (hfuel : tokens.length < fuel) :
    get_macros fuel tokens vms fms = some (tokens, vms, fms) ∧
    ∀ t ∈ tokens, t.kind ∉ [TokenKind.DefineDirective, TokenKind.Ifdef,
      TokenKind.Ifndef, TokenKind.Endif, TokenKind.Undef, TokenKind.EndDefine,
      TokenKind.Stringify, TokenKind.TaggedVararg, TokenKind.Paste,
      TokenKind.Vararg, TokenKind.MacroName] := by
  refine ⟨getMacros_inert_id tokens hin vms fms fuel hfuel, fun t ht => ?_⟩
  exact (inert_kind_facts t.kind (hin t ht)).2.2.2.2.2

/-- Witness for the amended C4 at a concrete input and environment. -/
theorem c4_output_stream_invariant_witness :
    get_macros 3 [⟨TokenKind.Name, "x"⟩, ⟨TokenKind.Special, "="⟩]
        [⟨"x", [⟨TokenKind.Number, "1"⟩]⟩] [] =
      some ([⟨TokenKind.Name, "x"⟩, ⟨TokenKind.Special, "="⟩],
        [⟨"x", [⟨TokenKind.Number, "1"⟩]⟩], []) ∧
    ∀ t ∈ ([⟨TokenKind.Name, "x"⟩, ⟨TokenKind.Special, "="⟩] : List Token),
      t.kind ∉ [TokenKind.DefineDirective, TokenKind.Ifdef,
      TokenKind.Ifndef, TokenKind.Endif, TokenKind.Undef, TokenKind.EndDefine,
      TokenKind.Stringify, TokenKind.TaggedVararg, TokenKind.Paste,
      TokenKind.Vararg, TokenKind.MacroName] :=
  c4_output_stream_invariant
    [⟨TokenKind.Name, "x"⟩, ⟨TokenKind.Special, "="⟩]
    (by decide) [⟨"x", [⟨TokenKind.Number, "1"⟩]⟩] [] 3 (by decide)

/-!
### The no-macro fragment (C8)

An input string without `#` cannot lex into any directive token, because
every directive rule is an anchored literal starting with `#`.
-/

theorem isPrefixOf_subset : ∀ (l1 l2 : List Char), l1.isPrefixOf l2 → l1 ⊆ l2 := by
  intro l1
  induction l1 with
  | nil => intro l2 _ x hx; cases hx
  | cons a as ih =>
    intro l2 hp x hx
    match l2, hp with
    | b :: bs, hp =>
      simp only [List.isPrefixOf_cons₂] at hp
      obtain ⟨hab, htail⟩ := (Bool.and_eq_true _ _).mp hp
      rcases List.mem_cons.mp hx with rfl | hx'
      · simp [beq_iff_eq.mp hab]
      · exact List.mem_cons_of_mem b (ih bs htail hx')

theorem matchLit_none (pat cs : List Char) (c : Char) (hc : c ∈ pat)
    (h : c ∉ cs) : matchLit pat cs = none := by
  unfold matchLit
  split
  · next hp => exact absurd (isPrefixOf_subset pat cs hp hc) h
  · rfl

theorem tryRules_kind_no_hash (cs : List Char) (n : Nat) (k : TokenKind)
    (hh : '#' ∉ cs) (h : tryRules cs = some (n, k)) :
    k ∉ [TokenKind.DefineDirective, TokenKind.Ifdef, TokenKind.Ifndef,
      TokenKind.Endif, TokenKind.Undef] := by
  have l1 : matchLit "#define".data cs = none := matchLit_none _ _ '#' (by decide) hh
  have l2 : matchLit "#ifdef".data cs = none := matchLit_none _ _ '#' (by decide) hh
  have l3 : matchLit "#ifndef".data cs = none := matchLit_none _ _ '#' (by decide) hh
  have l4 : matchLit "#endif".data cs = none := matchLit_none _ _ '#' (by decide) hh
  have l5 : matchLit "#undef".data cs = none := matchLit_none _ _ '#' (by decide) hh
  have l6 : matchLit "#end".data cs = none := matchLit_none _ _ '#' (by decide) hh
  have l7 : matchLit "#...".data cs = none := matchLit_none _ _ '#' (by decide) hh
  simp only [tryRules, ruleOr, l1, l2, l3, l4, l5, l6, l7] at h
  repeat' (split at h)
  all_goals cases h
  all_goals decide

theorem lex_single_token_no_hash (cs : List Char) (rest : List Char) (t : Token)
    (hh : '#' ∉ cs) (h : lex_single_token cs = some (rest, t)) :
    t.kind ∉ [TokenKind.DefineDirective, TokenKind.Ifdef, TokenKind.Ifndef,
      TokenKind.Endif, TokenKind.Undef] ∧ rest ⊆ cs := by
  unfold lex_single_token at h
  split at h
  · exact absurd h (by simp)
  · next n kind heq =>
    simp only [Option.some.injEq, Prod.mk.injEq] at h
    obtain ⟨hrest, ht⟩ := h
    subst hrest
    constructor
    · have := tryRules_kind_no_hash cs n kind hh heq
      rw [← ht]
      exact this
    · exact List.drop_subset n cs

theorem lexLoop_kinds (fuel : Nat) :
    ∀ (rem : List Char) (ts : List Token), '#' ∉ rem →
    lexLoop fuel rem = some ts →
    ∀ t ∈ ts, t.kind ∉ [TokenKind.DefineDirective, TokenKind.Ifdef,
      TokenKind.Ifndef, TokenKind.Endif, TokenKind.Undef] := by
  induction fuel with
  | zero => intro rem ts _ h; exact absurd h (by simp [lexLoop])
  | succ fuel ih =>
    intro rem ts hh h
    match rem with
    | [] =>
      simp only [lexLoop] at h
      cases h
      simp
    | r :: rs =>
      simp only [lexLoop] at h
      split at h
      · exact absurd h (by simp)
      · next rest t heq =>
        split at h
        · exact absurd h (by simp)
        · next ts' heq' =>
          simp only [Option.some.injEq] at h
          subst h
          have hsub := lex_single_token_no_hash (r :: rs) rest t hh heq
          intro u hu
          rcases List.mem_cons.mp hu with rfl | hu'
          · exact hsub.1
          · have hh' : '#' ∉ trimSpTab rest := by
              intro hmem
              exact hh (hsub.2 ((List.dropWhile_sublist _).subset hmem))
            exact ih (trimSpTab rest) ts' hh' heq' u hu'

/-- Erasing whitespace is invariant under the lexer's leading space/tab
trim. -/
theorem strip_trimSpTab (l : List Char) :
    (trimSpTab l).filter (fun c => !(isWsChar c)) =
      l.filter (fun c => !(isWsChar c)) := by
  induction l with
  | nil => rfl
  | cons c r ih =>
    by_cases hc : (c == ' ' || c == '\t') = true
    · have hw : isWsChar c = true := by
        simp only [isWsChar]
        simp only [Bool.or_eq_true] at hc ⊢
        tauto
      have ht : trimSpTab (c :: r) = trimSpTab r := by
        simp [trimSpTab, List.dropWhile, hc]
      rw [ht, ih, List.filter_cons]
      simp [hw]
    · have hcf : (c == ' ' || c == '\t') = false := by simpa using hc
      have ht : trimSpTab (c :: r) = c :: r := by
        simp [trimSpTab, List.dropWhile, hcf]
      rw [ht]

/-- Every successful lex covers the remaining input: the concatenation of
the produced lexemes equals the input up to the elided whitespace
(main.rs:123-140 consumes alternately a space/tab trim and one token whose
`value` is exactly the matched prefix). -/
theorem lexLoop_strip (fuel : Nat) : ∀ (rem : List Char) (ts : List Token),
    lexLoop fuel rem = some ts →
    ((ts.map (fun t => t.value.data)).flatten).filter (fun c => !(isWsChar c)) =
      rem.filter (fun c => !(isWsChar c)) := by
  induction fuel with
  | zero => intro rem ts h; simp [lexLoop] at h
  | succ fuel ih =>
    intro rem ts h
    match rem with
    | [] =>
      simp only [lexLoop] at h
      cases h
      rfl
    | r :: rs =>
      simp only [lexLoop] at h
      split at h
      · cases h
      · rename_i rest t heq
        split at h
        · cases h
        · rename_i ts' heq'
          cases h
          unfold lex_single_token at heq
          split at heq
          · cases heq
          · rename_i n kind htr
            simp only [Option.some.injEq, Prod.mk.injEq] at heq
            obtain ⟨hrest, ht⟩ := heq
            have ihtail := ih (trimSpTab rest) ts' heq'
            rw [strip_trimSpTab] at ihtail
            simp only [List.map_cons, List.flatten_cons, List.filter_append]
            rw [ihtail, ← ht, ← hrest]
            rw [show (Token.mk kind ⟨(r :: rs).take n⟩).value.data = (r :: rs).take n
              from rfl]
            rw [← List.filter_append, List.take_append_drop]

/-- Stripping whitespace from the renderer's fold: the separators it
inserts are whitespace, so only the lexemes remain. -/
theorem render_fold_strip (vs : List String) : ∀ (acc : String),
    ((vs.foldl (fun acc v =>
        if endsWithNewline acc then acc ++ v else acc ++ " " ++ v) acc).data).filter
      (fun c => !(isWsChar c)) =
    acc.data.filter (fun c => !(isWsChar c)) ++
      ((vs.map String.data).flatten).filter (fun c => !(isWsChar c)) := by
  induction vs with
  | nil => intro acc; simp
  | cons v vs ih =>
    intro acc
    simp only [List.foldl_cons]
    rw [ih]
    have hstep :
        (((if endsWithNewline acc then acc ++ v else acc ++ " " ++ v) : String).data).filter
          (fun c => !(isWsChar c)) =
        acc.data.filter (fun c => !(isWsChar c)) ++
          v.data.filter (fun c => !(isWsChar c)) := by
      split
      · rw [String.data_append, List.filter_append]
      · rw [String.data_append, String.data_append, List.filter_append,
          List.filter_append]
        simp [isWsChar]
    rw [hstep]
    simp [List.filter_append]

/-- Stripping whitespace, a successful render of a token sequence is the
concatenation of its lexemes. -/
theorem render_strip (ts : List Token) (rnd : String)
    (h : render_tokens_as_string ts = some rnd) :
    rnd.data.filter (fun c => !(isWsChar c)) =
      ((ts.map (fun t => t.value.data)).flatten).filter (fun c => !(isWsChar c)) := by
  unfold render_tokens_as_string at h
  split at h
  · cases h
  · rename_i v vs heq
    simp only [Option.some.injEq] at h
    subst h
    rw [render_fold_strip]
    have : ts.map (fun t => t.value.data) = (ts.map Token.value).map String.data := by
      simp
    rw [this, heq]
    simp [List.filter_append]

/-- C8: identity on the no-macro subset.  If the lexed input contains no
directive token (`#define`, `#ifdef`, `#ifndef`, `#endif`, `#undef`,
`#end`) and no MacroName token (identifier ending in `!`) — which admits
`#` as an ordinary operator or inside strings, and `!` inside operators
such as `!=` — then the expander emits the lexed token sequence unchanged
with untouched (empty) macro tables, and the rendered output equals the
input modulo whitespace normalisation: erasing whitespace, the render
equals the source string. -/
theorem c8_no_macro_identity (s : String) (ts : List Token)
    (hlex : lex_whole_input s = some ts)
    (hdir : ∀ t ∈ ts, t.kind ∉ [TokenKind.DefineDirective, TokenKind.Ifdef,
      TokenKind.Ifndef, TokenKind.Endif, TokenKind.Undef, TokenKind.EndDefine])
    (hbang : ∀ t ∈ ts, t.kind ≠ TokenKind.MacroName)
    (fuel : Nat) (hfuel : ts.length < fuel) :
    get_macros fuel ts [] [] = some (ts, [], []) ∧
    ∀ rnd, render_tokens_as_string ts = some rnd →
      stripWhitespace rnd = stripWhitespace s := by
  constructor
  · have := getMacrosLoop_emit_id fuel ts 0 [] [] [] (by omega)
      (fun j _ hj => by
        have h6 := hdir ts[j] (ts.getElem_mem hj)
        intro hmem
        apply h6
        simp only [List.mem_cons, List.not_mem_nil, or_false] at hmem ⊢
        tauto)
      (fun j _ => firstValueMatch_nil _) (fun j _ => firstFuncMatch_nil _)
    simpa [get_macros] using this
  · intro rnd hrnd
    have h1 := render_strip ts rnd hrnd
    unfold lex_whole_input at hlex
    have h2 := lexLoop_strip (s.data.length + 1) (trimSpTab s.data) ts hlex
    rw [strip_trimSpTab] at h2
    show String.mk _ = String.mk _
    exact congrArg String.mk (h1.trans h2)

/-- Witness for C8 on the concrete input `"x = #t"`, which contains a `#`
(the host language's length operator) but no directive: the expander is
the identity on its four tokens and, stripping whitespace, the render
`"x = # t"` equals the input. -/
theorem c8_no_macro_identity_witness :
    get_macros 5 [⟨TokenKind.Name, "x"⟩, ⟨TokenKind.Special, "="⟩,
        ⟨TokenKind.Special, "#"⟩, ⟨TokenKind.Name, "t"⟩] [] [] =
      some ([⟨TokenKind.Name, "x"⟩, ⟨TokenKind.Special, "="⟩,
        ⟨TokenKind.Special, "#"⟩, ⟨TokenKind.Name, "t"⟩], [], []) ∧
    stripWhitespace "x = # t" = stripWhitespace "x = #t" :=
  ⟨(c8_no_macro_identity "x = #t"
      [⟨TokenKind.Name, "x"⟩, ⟨TokenKind.Special, "="⟩,
       ⟨TokenKind.Special, "#"⟩, ⟨TokenKind.Name, "t"⟩]
      (by rfl) (by decide) (by decide) 5 (by decide)).1,
   (c8_no_macro_identity "x = #t"
      [⟨TokenKind.Name, "x"⟩, ⟨TokenKind.Special, "="⟩,
       ⟨TokenKind.Special, "#"⟩, ⟨TokenKind.Name, "t"⟩]
      (by rfl) (by decide) (by decide) 5 (by decide)).2 "x = # t" (by rfl)⟩

/-- One loop iteration on a well-formed value-macro definition
`#define NAME! = body #end` (main.rs:269-340, value path): the directive
token is popped, the body is captured up to the first `#end`, the macro is
appended to the value table and the cursor jumps past the `#end`. -/
theorem getMacrosLoop_step_define_value (fuel : Nat) (tokens : List Token)
    (c : Nat) (acc : List Token) (vms : List ValueMacroDef)
    (fms : List FunctionMacroDef) (dv nm : String)
    (h0 : tokens[c]? = some ⟨TokenKind.DefineDirective, dv⟩)
    (h1 : tokens[c + 1]? = some ⟨TokenKind.MacroName, nm⟩)
    (h2 : tokens[c + 2]? = some ⟨TokenKind.Special, "="⟩)
    (hval : firstValueMatch (tokens.drop c) vms = .ok none)
    (hfun : firstFuncMatch (tokens.drop (c + 1)) fms = .ok none) :
    getMacrosLoop (fuel + 1) tokens c acc vms fms =
      getMacrosLoop fuel tokens
        (c + 4 +
          ((tokens.drop (c + 3)).takeWhile (fun t => t.kind != TokenKind.EndDefine)).length)
        acc
        (vms ++ [⟨nm, (tokens.drop (c + 3)).takeWhile (fun t => t.kind != TokenKind.EndDefine)⟩])
        fms := by
  have h2' : tokens[c + 1 + 1]? = some ⟨TokenKind.Special, "="⟩ := h2
  simp [getMacrosLoop, h0, h1, h2', undefStep, defineStep, Nat.add_sub_cancel,
    hval, hfun, List.dropLast_concat]

/-- One loop iteration on `#undef NAME!` (main.rs:184-210): both tokens are
consumed, nothing is emitted, and every macro named `NAME!` is removed from
both tables. -/
theorem getMacrosLoop_step_undef (fuel : Nat) (tokens : List Token)
    (c : Nat) (acc : List Token) (vms : List ValueMacroDef)
    (fms : List FunctionMacroDef) (uv nm : String)
    (h0 : tokens[c]? = some ⟨TokenKind.Undef, uv⟩)
    (h1 : tokens[c + 1]? = some ⟨TokenKind.MacroName, nm⟩)
    (hval : firstValueMatch (tokens.drop (c + 1))
      (vms.filter (fun v => !(v.name == nm))) = .ok none)
    (hfun : firstFuncMatch (tokens.drop (c + 2))
      (fms.filter (fun f => !(f.name == nm))) = .ok none) :
    getMacrosLoop (fuel + 1) tokens c acc vms fms =
      getMacrosLoop fuel tokens (c + 2) acc
        (vms.filter (fun v => !(v.name == nm)))
        (fms.filter (fun f => !(f.name == nm))) := by
  have hfun' : firstFuncMatch (tokens.drop (c + 1 + 1))
      (fms.filter (fun f => !(f.name == nm))) = .ok none := hfun
  simp [getMacrosLoop, h0, h1, undefStep, List.dropLast_concat]
  rw [hval]
  simp [hfun']

/-- C5: definition removal.  `#define NAME! = X #end` followed by
`#undef NAME!` leaves both macro tables empty, and a following token stream
free of directive tokens (it may freely contain `NAME!` occurrences) is
emitted unchanged: no occurrence of `NAME!` after the `#undef` is
expanded. -/
theorem c5_definition_removal (nm : String) (x : Token)
    (hx : x.kind ≠ TokenKind.EndDefine) (rest : List Token)
    (hrest : ∀ t ∈ rest, t.kind ∉ [TokenKind.DefineDirective, TokenKind.Ifdef,
      TokenKind.Ifndef, TokenKind.Endif, TokenKind.Undef])
    (fuel : Nat) (hfuel : rest.length + 3 ≤ fuel) :
    get_macros fuel
      ([⟨TokenKind.DefineDirective, "#define"⟩, ⟨TokenKind.MacroName, nm⟩,
        ⟨TokenKind.Special, "="⟩, x, ⟨TokenKind.EndDefine, "#end"⟩,
        ⟨TokenKind.Undef, "#undef"⟩, ⟨TokenKind.MacroName, nm⟩] ++ rest)
      [] [] = some (rest, [], []) := by
  match fuel, hfuel with
  | g + 2, hfuel =>
    have hx' : (x.kind == TokenKind.EndDefine) = false := beq_eq_false_iff_ne.mpr hx
    have hbody :
        (([⟨TokenKind.DefineDirective, "#define"⟩, ⟨TokenKind.MacroName, nm⟩,
          ⟨TokenKind.Special, "="⟩, x, ⟨TokenKind.EndDefine, "#end"⟩,
          ⟨TokenKind.Undef, "#undef"⟩, ⟨TokenKind.MacroName, nm⟩] ++ rest).drop
            (0 + 3)).takeWhile (fun t => t.kind != TokenKind.EndDefine) = [x] := by
      simp [List.takeWhile, bne, hx']
    rw [get_macros,
      getMacrosLoop_step_define_value (g + 1) _ 0 [] [] [] "#define" nm
        rfl rfl rfl (firstValueMatch_nil _) (firstFuncMatch_nil _), hbody,
      List.nil_append]
    have hfilter : ([⟨nm, [x]⟩] : List ValueMacroDef).filter
        (fun v => !(v.name == nm)) = [] := by simp
    rw [show (0 + 4 + ([x] : List Token).length) = 5 by rfl,
      getMacrosLoop_step_undef g _ 5 [] [⟨nm, [x]⟩] [] "#undef" nm
        (by simp) (by simp) (by rw [hfilter]; exact firstValueMatch_nil _)
        (by simp; exact firstFuncMatch_nil _), hfilter, List.filter_nil]
    have hemit := getMacrosLoop_emit_id g
      ([⟨TokenKind.DefineDirective, "#define"⟩, ⟨TokenKind.MacroName, nm⟩,
        ⟨TokenKind.Special, "="⟩, x, ⟨TokenKind.EndDefine, "#end"⟩,
        ⟨TokenKind.Undef, "#undef"⟩, ⟨TokenKind.MacroName, nm⟩] ++ rest)
      7 [] [] [] (by simp; omega)
      (by
        intro j hj hjl
        rw [List.getElem_append_right (by simp; omega)]
        apply hrest
        apply List.getElem_mem)
      (fun j _ => firstValueMatch_nil _) (fun j _ => firstFuncMatch_nil _)
    rw [show (5 + 2) = 7 by rfl, hemit]
    simp

/-- Witness for C5: `#define FOO! = 42 #end #undef FOO!` followed by a bare
`FOO!`, which is emitted unexpanded. -/
theorem c5_definition_removal_witness :
    get_macros 4
      ([⟨TokenKind.DefineDirective, "#define"⟩, ⟨TokenKind.MacroName, "FOO!"⟩,
        ⟨TokenKind.Special, "="⟩, ⟨TokenKind.Number, "42"⟩,
        ⟨TokenKind.EndDefine, "#end"⟩, ⟨TokenKind.Undef, "#undef"⟩,
        ⟨TokenKind.MacroName, "FOO!"⟩] ++ [⟨TokenKind.MacroName, "FOO!"⟩])
      [] [] = some ([⟨TokenKind.MacroName, "FOO!"⟩], [], []) :=
  c5_definition_removal "FOO!" ⟨TokenKind.Number, "42"⟩ (by decide)
    [⟨TokenKind.MacroName, "FOO!"⟩] (by decide) 4 (by decide)

/-- C6: re-scan.  With `#define A! = B! #end` and `#define B! = 42 #end`
both live, a use of `A!` expands to the single Number token `42`: the
substituted body `B!` is recursively expanded under the same environment
(main.rs:215).  Both definitions remain in the table afterwards. -/
theorem c6_rescan :
    get_macros 50
      [⟨TokenKind.DefineDirective, "#define"⟩, ⟨TokenKind.MacroName, "A!"⟩,
       ⟨TokenKind.Special, "="⟩, ⟨TokenKind.MacroName, "B!"⟩,
       ⟨TokenKind.EndDefine, "#end"⟩,
       ⟨TokenKind.DefineDirective, "#define"⟩, ⟨TokenKind.MacroName, "B!"⟩,
       ⟨TokenKind.Special, "="⟩, ⟨TokenKind.Number, "42"⟩,
       ⟨TokenKind.EndDefine, "#end"⟩,
       ⟨TokenKind.MacroName, "A!"⟩] [] [] =
      some ([⟨TokenKind.Number, "42"⟩],
        [⟨"A!", [⟨TokenKind.MacroName, "B!"⟩]⟩, ⟨"B!", [⟨TokenKind.Number, "42"⟩]⟩],
        []) := by
  rfl

/-- C2 evaluated at the failing input: with the live definition
`FOO! ↦ 42`, the stream `FOO! = 5` expands to `42 = 5`.  The suppression
check at main.rs:348-350 fires and returns the bare MacroName, but
main.rs:215 re-scans that single-token result, where `input.len() > 1`
fails and the macro expands anyway: the MacroName is not emitted
unchanged. -/
theorem c2_assignment_suppression_fails :
    get_macros 50
      [⟨TokenKind.MacroName, "FOO!"⟩, ⟨TokenKind.Special, "="⟩,
       ⟨TokenKind.Number, "5"⟩]
      [⟨"FOO!", [⟨TokenKind.Number, "42"⟩]⟩] [] =
      some ([⟨TokenKind.Number, "42"⟩, ⟨TokenKind.Special, "="⟩,
        ⟨TokenKind.Number, "5"⟩],
        [⟨"FOO!", [⟨TokenKind.Number, "42"⟩]⟩], []) ∧
    lex_whole_input "#define FOO! = 42 #end\nFOO! = 5" =
      some [⟨TokenKind.DefineDirective, "#define"⟩, ⟨TokenKind.MacroName, "FOO!"⟩,
        ⟨TokenKind.Special, "="⟩, ⟨TokenKind.Number, "42"⟩,
        ⟨TokenKind.EndDefine, "#end"⟩, ⟨TokenKind.Newline, "\n"⟩,
        ⟨TokenKind.MacroName, "FOO!"⟩, ⟨TokenKind.Special, "="⟩,
        ⟨TokenKind.Number, "5"⟩] ∧
    get_macros 50
      [⟨TokenKind.DefineDirective, "#define"⟩, ⟨TokenKind.MacroName, "FOO!"⟩,
       ⟨TokenKind.Special, "="⟩, ⟨TokenKind.Number, "42"⟩,
       ⟨TokenKind.EndDefine, "#end"⟩, ⟨TokenKind.Newline, "\n"⟩,
       ⟨TokenKind.MacroName, "FOO!"⟩, ⟨TokenKind.Special, "="⟩,
       ⟨TokenKind.Number, "5"⟩] [] [] =
      some ([⟨TokenKind.Newline, "\n"⟩, ⟨TokenKind.Number, "42"⟩,
        ⟨TokenKind.Special, "="⟩, ⟨TokenKind.Number, "5"⟩],
        [⟨"FOO!", [⟨TokenKind.Number, "42"⟩]⟩], []) := by
  refine ⟨by rfl, by rfl, by rfl⟩

/-- C1 evaluated at its failing and passing inputs.  For
`#define LOG!(fmt, ...) = print(fmt, __VA_ARGS__) #end`, the invocation
`LOG!("x")` does NOT elide `, __VA_ARGS__`: `zip(params, args)`
(main.rs:419) pairs the two parameters with the single argument, so the
variadic parameter is never bound and the output keeps the comma and a
literal `__VA_ARGS__`.  The invocation `LOG!("x", 1, 2)` expands as the
claim states. -/
theorem c1_variadic_elision_behaviour :
    lex_whole_input "#define LOG!(fmt, ...) = print(fmt, __VA_ARGS__) #end\nLOG!(\"x\")" =
      some [⟨TokenKind.DefineDirective, "#define"⟩, ⟨TokenKind.MacroName, "LOG!"⟩,
        ⟨TokenKind.Brace, "("⟩, ⟨TokenKind.Name, "fmt"⟩, ⟨TokenKind.Delimiter, ","⟩,
        ⟨TokenKind.Vararg, "..."⟩, ⟨TokenKind.Brace, ")"⟩, ⟨TokenKind.Special, "="⟩,
        ⟨TokenKind.Name, "print"⟩, ⟨TokenKind.Brace, "("⟩, ⟨TokenKind.Name, "fmt"⟩,
        ⟨TokenKind.Delimiter, ","⟩, ⟨TokenKind.Name, "__VA_ARGS__"⟩,
        ⟨TokenKind.Brace, ")"⟩, ⟨TokenKind.EndDefine, "#end"⟩,
        ⟨TokenKind.Newline, "\n"⟩, ⟨TokenKind.MacroName, "LOG!"⟩,
        ⟨TokenKind.Brace, "("⟩, ⟨TokenKind.String, "\"x\""⟩, ⟨TokenKind.Brace, ")"⟩] ∧
    get_macros 100
      [⟨TokenKind.DefineDirective, "#define"⟩, ⟨TokenKind.MacroName, "LOG!"⟩,
       ⟨TokenKind.Brace, "("⟩, ⟨TokenKind.Name, "fmt"⟩, ⟨TokenKind.Delimiter, ","⟩,
       ⟨TokenKind.Vararg, "..."⟩, ⟨TokenKind.Brace, ")"⟩, ⟨TokenKind.Special, "="⟩,
       ⟨TokenKind.Name, "print"⟩, ⟨TokenKind.Brace, "("⟩, ⟨TokenKind.Name, "fmt"⟩,
       ⟨TokenKind.Delimiter, ","⟩, ⟨TokenKind.Name, "__VA_ARGS__"⟩,
       ⟨TokenKind.Brace, ")"⟩, ⟨TokenKind.EndDefine, "#end"⟩,
       ⟨TokenKind.Newline, "\n"⟩, ⟨TokenKind.MacroName, "LOG!"⟩,
       ⟨TokenKind.Brace, "("⟩, ⟨TokenKind.String, "\"x\""⟩, ⟨TokenKind.Brace, ")"⟩]
      [] [] =
      some ([⟨TokenKind.Newline, "\n"⟩, ⟨TokenKind.Name, "print"⟩,
        ⟨TokenKind.Brace, "("⟩, ⟨TokenKind.String, "\"x\""⟩,
        ⟨TokenKind.Delimiter, ","⟩, ⟨TokenKind.Name, "__VA_ARGS__"⟩,
        ⟨TokenKind.Brace, ")"⟩],
        [],
        [⟨"LOG!", ["fmt", "..."],
          [⟨TokenKind.Name, "print"⟩, ⟨TokenKind.Brace, "("⟩,
           ⟨TokenKind.Name, "fmt"⟩, ⟨TokenKind.Delimiter, ","⟩,
           ⟨TokenKind.Name, "__VA_ARGS__"⟩, ⟨TokenKind.Brace, ")"⟩]⟩]) ∧
    get_macros 100
      [⟨TokenKind.DefineDirective, "#define"⟩, ⟨TokenKind.MacroName, "LOG!"⟩,
       ⟨TokenKind.Brace, "("⟩, ⟨TokenKind.Name, "fmt"⟩, ⟨TokenKind.Delimiter, ","⟩,
       ⟨TokenKind.Vararg, "..."⟩, ⟨TokenKind.Brace, ")"⟩, ⟨TokenKind.Special, "="⟩,
       ⟨TokenKind.Name, "print"⟩, ⟨TokenKind.Brace, "("⟩, ⟨TokenKind.Name, "fmt"⟩,
       ⟨TokenKind.Delimiter, ","⟩, ⟨TokenKind.Name, "__VA_ARGS__"⟩,
       ⟨TokenKind.Brace, ")"⟩, ⟨TokenKind.EndDefine, "#end"⟩,
       ⟨TokenKind.Newline, "\n"⟩, ⟨TokenKind.MacroName, "LOG!"⟩,
       ⟨TokenKind.Brace, "("⟩, ⟨TokenKind.String, "\"x\""⟩, ⟨TokenKind.Delimiter, ","⟩,
       ⟨TokenKind.Number, "1"⟩, ⟨TokenKind.Delimiter, ","⟩, ⟨TokenKind.Number, "2"⟩,
       ⟨TokenKind.Brace, ")"⟩]
      [] [] =
      some ([⟨TokenKind.Newline, "\n"⟩, ⟨TokenKind.Name, "print"⟩,
        ⟨TokenKind.Brace, "("⟩, ⟨TokenKind.String, "\"x\""⟩,
        ⟨TokenKind.Delimiter, ","⟩, ⟨TokenKind.Number, "1"⟩,
        ⟨TokenKind.Delimiter, ","⟩, ⟨TokenKind.Number, "2"⟩,
        ⟨TokenKind.Brace, ")"⟩],
        [],
        [⟨"LOG!", ["fmt", "..."],
          [⟨TokenKind.Name, "print"⟩, ⟨TokenKind.Brace, "("⟩,
           ⟨TokenKind.Name, "fmt"⟩, ⟨TokenKind.Delimiter, ","⟩,
           ⟨TokenKind.Name, "__VA_ARGS__"⟩, ⟨TokenKind.Brace, ")"⟩]⟩]) := by
  refine ⟨by rfl, by rfl, by rfl⟩

theorem firstValueMatch_macroname_other (v : String) (rest : List Token)
    (vms : List ValueMacroDef) (h : ∀ vm ∈ vms, vm.name ≠ v) :
    firstValueMatch (⟨TokenKind.MacroName, v⟩ :: rest) vms = .ok none := by
  induction vms with
  | nil => rfl
  | cons vmac vms ih =>
    have hne : (v == vmac.name) = false :=
      beq_eq_false_iff_ne.mpr (fun e => (h vmac (by simp)) e.symm)
    simp only [firstValueMatch, apply_value_macro_once]
    simp [hne, ih (fun vm hm => h vm (by simp [hm]))]

/-- The `#ifdef` branch either keeps the accumulator or pops once. -/
theorem ifdefStep_acc (tokens : List Token) (b : Bool) (ri : Nat)
    (acc : List Token) (vms : List ValueMacroDef) (fms : List FunctionMacroDef) :
    (ifdefStep tokens b ri acc vms fms).2 = acc ∨
    (ifdefStep tokens b ri acc vms fms).2 = acc.dropLast := by
  unfold ifdefStep
  split
  · exact Or.inl rfl
  · split <;> simp

/-- The `#define` branch either keeps the accumulator or pops once. -/
theorem defineStep_acc (tokens : List Token) (ri : Nat)
    (acc : List Token) (vms : List ValueMacroDef) (fms : List FunctionMacroDef) :
    (defineStep tokens ri acc vms fms).2.1 = acc ∨
    (defineStep tokens ri acc vms fms).2.1 = acc.dropLast := by
  unfold defineStep
  split
  · exact Or.inl rfl
  · split
    · exact Or.inl rfl
    · split
      · exact Or.inl rfl
      · split
        · dsimp only
          split
          · exact Or.inl rfl
          · split <;> simp
        · split
          · simp
          · split
            · exact Or.inl rfl
            · dsimp only
              simp

/-- Outcome shapes of the `#undef` branch. -/
theorem undefStep_cases (tokens : List Token) (token : Token) (ri : Nat)
    (acc : List Token) (vms : List ValueMacroDef) (fms : List FunctionMacroDef) :
    undefStep tokens token ri acc vms fms = (ri, acc, vms, fms, false) ∨
    undefStep tokens token ri acc vms fms = (ri + 1, acc.dropLast, vms, fms, true) ∨
    (∃ name, tokens[ri]? = some name ∧ name.kind = TokenKind.MacroName ∧
      token.kind = TokenKind.Undef ∧
      undefStep tokens token ri acc vms fms =
        (ri + 1, acc.dropLast,
          vms.filter (fun v => !(v.name == name.value)),
          fms.filter (fun f => !(f.name == name.value)), false)) := by
  unfold undefStep
  split
  · rename_i hu
    split
    · exact Or.inl rfl
    · rename_i name hname
      split
      · exact Or.inr (Or.inl rfl)
      · rename_i hkind
        refine Or.inr (Or.inr ⟨name, hname, ?_, ?_, rfl⟩)
        · simpa using hkind
        · simpa using hu
  · exact Or.inl rfl

/-- Closing step for the accumulator-extension invariant: after the
conditional branches the accumulator is the pre-iteration accumulator plus
the pushed token plus a possible expansion, possibly popped once; the final
result extends it. -/
theorem extension_close (acc base : List Token) (t : Token) (e : List Token)
    (res1 newAcc : List Token)
    (hbase : base = acc ++ [t] ++ e)
    (hY : newAcc = base ∨ newAcc = base.dropLast)
    (hd : ∃ d, res1 = newAcc ++ d) : ∃ d, res1 = acc ++ d := by
  obtain ⟨d, hd⟩ := hd
  subst hbase
  rcases hY with rfl | rfl
  · exact ⟨[t] ++ e ++ d, by rw [hd]; simp⟩
  · rw [List.append_assoc, List.dropLast_append_of_ne_nil acc (by simp)] at hd
    exact ⟨([t] ++ e).dropLast ++ d, by rw [hd, List.append_assoc]⟩

/-- The output accumulator of the expander loop only grows: the result of a
run extends whatever had been emitted when the run started.  Every pop in
the loop body (main.rs:187, 214, 233, 266, 310, 337) removes either the
token pushed in the same iteration or part of an expansion appended in the
same iteration. -/
theorem getMacrosLoop_acc_extension :
    ∀ (fuel : Nat) (tokens : List Token) (c : Nat) (acc : List Token)
      (vms : List ValueMacroDef) (fms : List FunctionMacroDef)
      (res : List Token × List ValueMacroDef × List FunctionMacroDef),
    getMacrosLoop fuel tokens c acc vms fms = some res →
    ∃ d, res.1 = acc ++ d := by
  intro fuel
  induction fuel with
  | zero =>
    intro tokens c acc vms fms res h
    simp [getMacrosLoop] at h
  | succ fuel ih =>
    intro tokens c acc vms fms res h
    simp only [getMacrosLoop] at h
    split at h
    · cases h
      exact ⟨[], by simp⟩
    · rename_i token hget
      have hc : c < tokens.length := by
        by_contra hcl
        rw [List.getElem?_eq_none (Nat.le_of_not_lt hcl)] at hget
        cases hget
      have htok : tokens[c] = token := by
        rw [List.getElem?_eq_getElem hc] at hget
        exact (Option.some.injEq _ _).mp hget
      have hdropc : tokens.drop (c + 1 - 1) = token :: tokens.drop (c + 1) := by
        rw [Nat.add_sub_cancel, List.drop_eq_getElem_cons hc, htok]
      by_cases hdir : token.kind = TokenKind.Ifdef ∨ token.kind = TokenKind.Ifndef ∨
          token.kind = TokenKind.Endif ∨ token.kind = TokenKind.DefineDirective
      · -- a directive-like cursor token: no value macro can match at it, so
        -- the token pushed in this iteration survives the branch pops
        have hku : (token.kind == TokenKind.Undef) = false := by
          rcases hdir with h' | h' | h' | h' <;> simp [h']
        have hval : firstValueMatch (tokens.drop (c + 1 - 1)) vms = .ok none := by
          rw [hdropc]
          refine firstValueMatch_skip token _ vms ?_ ?_ ?_ ?_ <;>
            (rcases hdir with h' | h' | h' | h' <;> simp [h'])
        simp only [undefStep, hku, Bool.false_eq_true, if_false] at h
        rw [hval] at h
        simp only [] at h
        split at h
        · cases h
        · rename_i fres hfres
          split at h
          · cases h
          · rename_i ri2 acc4 vms3 fms3 heq
            have hacc4 : ∃ e, acc4 = acc ++ [token] ++ e := by
              split at heq
              · cases heq
                exact ⟨[], by simp⟩
              · split at heq
                · cases heq
                · cases heq
                  exact ⟨_, rfl⟩
            obtain ⟨e, he⟩ := hacc4
            subst he
            split at h
            · exact extension_close acc _ token e res.1 _ rfl
                (ifdefStep_acc _ _ _ _ _ _) (ih _ _ _ _ _ _ h)
            · split at h
              · exact extension_close acc _ token e res.1 _ rfl
                  (Or.inr rfl) (ih _ _ _ _ _ _ h)
              · split at h
                · exact extension_close acc _ token e res.1 _ rfl
                    (defineStep_acc _ _ _ _ _) (ih _ _ _ _ _ _ h)
                · exact extension_close acc _ token e res.1 _ rfl
                    (Or.inl rfl) (ih _ _ _ _ _ _ h)
      · -- cursor token not of a conditional kind: all four tests are false
        push_neg at hdir
        obtain ⟨hd1, hd2, hd3, hd4⟩ := hdir
        have hb1 : (token.kind == TokenKind.Ifdef) = false := beq_eq_false_iff_ne.mpr hd1
        have hb2 : (token.kind == TokenKind.Ifndef) = false := beq_eq_false_iff_ne.mpr hd2
        have hb3 : (token.kind == TokenKind.Endif) = false := beq_eq_false_iff_ne.mpr hd3
        have hb4 : (token.kind == TokenKind.DefineDirective) = false := beq_eq_false_iff_ne.mpr hd4
        rcases undefStep_cases tokens token (c + 1) (acc ++ [token]) vms fms with hu | hu | hu
        · -- no #undef processing in this iteration
          rw [hu] at h
          simp only [hb1, hb2, hb3, hb4, Bool.or_self, Bool.false_eq_true, if_false,
            List.dropLast_concat] at h
          split at h
          · cases h
          · rename_i vres hvres
            split at h
            · cases h
            · rename_i acc3 vms2 fms2 heqv
              have hacc3 : ∃ e, acc3 = acc ++ e := by
                split at heqv
                · cases heqv
                  exact ⟨[token], rfl⟩
                · split at heqv
                  · cases heqv
                  · cases heqv
                    exact ⟨_, rfl⟩
              obtain ⟨e3, he3⟩ := hacc3
              subst he3
              split at h
              · cases h
              · rename_i fres hfres
                split at h
                · cases h
                · rename_i ri2 acc4 vms3 fms3 heqf
                  have hacc4 : ∃ e, acc4 = (acc ++ e3) ++ e := by
                    split at heqf
                    · cases heqf
                      exact ⟨[], by simp⟩
                    · split at heqf
                      · cases heqf
                      · cases heqf
                        exact ⟨_, rfl⟩
                  obtain ⟨e4, he4⟩ := hacc4
                  subst he4
                  obtain ⟨d, hd⟩ := ih _ _ _ _ _ _ h
                  exact ⟨e3 ++ e4 ++ d, by rw [hd]; simp⟩
        · -- #undef with a missing or non-MacroName operand: continue
          rw [hu] at h
          simp only [List.dropLast_concat] at h
          exact ih _ _ _ _ _ _ h
        · -- #undef with a MacroName operand: the tables are filtered and no
          -- remaining value macro carries that name, so no value match fires
          obtain ⟨name, hname, hnk, htk, hu⟩ := hu
          rw [hu] at h
          have hc1 : c + 1 < tokens.length := by
            by_contra hcl
            rw [List.getElem?_eq_none (Nat.le_of_not_lt hcl)] at hname
            cases hname
          have hdropc1 : tokens.drop (c + 1 + 1 - 1) = name :: tokens.drop (c + 2) := by
            rw [Nat.add_sub_cancel, List.drop_eq_getElem_cons hc1]
            rw [List.getElem?_eq_getElem hc1] at hname
            rw [(Option.some.injEq _ _).mp hname]
          have hname' : name = ⟨TokenKind.MacroName, name.value⟩ := by
            cases name
            simp_all
          have hval : firstValueMatch (tokens.drop (c + 1 + 1 - 1))
              ((acc ++ [token], vms, fms, false).2.1.filter
                (fun v => !(v.name == name.value))) = .ok none := by
            rw [hdropc1, hname']
            apply firstValueMatch_macroname_other
            intro vm hvm
            have := List.of_mem_filter hvm
            simpa using this
          simp only [List.dropLast_concat] at h
          rw [show (vms.filter (fun v => !(v.name == name.value))) =
            ((acc ++ [token], vms, fms, false).2.1.filter
              (fun v => !(v.name == name.value))) from rfl] at h
          rw [hval] at h
          simp only [hb1, hb2, hb3, hb4, Bool.or_self, Bool.false_eq_true, if_false] at h
          split at h
          · cases h
          · rename_i fres hfres
            split at h
            · cases h
            · rename_i ri2 acc4 vms3 fms3 heqf
              have hacc4 : ∃ e, acc4 = acc ++ e := by
                split at heqf
                · cases heqf
                  exact ⟨[], by simp⟩
                · split at heqf
                  · cases heqf
                  · cases heqf
                    exact ⟨_, rfl⟩
              obtain ⟨e4, he4⟩ := hacc4
              subst he4
              obtain ⟨d, hd⟩ := ih _ _ _ _ _ _ h
              exact ⟨e4 ++ d, by rw [hd]; simp⟩

/-- C9: first-position blind spot for function macros.  If the first token
of a stream handed to the expander is `NAME!` where `NAME!` names a live
function macro but no value macro, the invocation is not expanded: the
MacroName token itself is emitted unchanged at the head of the output
(function-macro applicability is only ever tested at `tokens.skip(i)`,
main.rs:222, i.e. at the token after the cursor, and no cursor precedes the
first token). -/
theorem c9_first_position_blind_spot (n : String) (rest : List Token)
    (vms : List ValueMacroDef) (fms : List FunctionMacroDef)
    (hvm : ∀ vm ∈ vms, vm.name ≠ n)
    (hfm : ∃ fm ∈ fms, fm.name = n)
    (fuel : Nat) (res : List Token × List ValueMacroDef × List FunctionMacroDef)
    (h : get_macros fuel (⟨TokenKind.MacroName, n⟩ :: rest) vms fms = some res) :
    ∃ d, res.1 = ⟨TokenKind.MacroName, n⟩ :: d := by
  match fuel with
  | 0 => simp [get_macros, getMacrosLoop] at h
  | fuel + 1 =>
    have hval : firstValueMatch ((⟨TokenKind.MacroName, n⟩ : Token) :: rest) vms = .ok none :=
      firstValueMatch_macroname_other n rest vms hvm
    rw [get_macros] at h
    simp only [getMacrosLoop, List.getElem?_cons_zero, undefStep] at h
    simp only [show (TokenKind.MacroName == TokenKind.Undef) = false from rfl,
      Bool.false_eq_true, if_false, Nat.add_sub_cancel, List.drop_zero] at h
    rw [hval] at h
    simp only [show (TokenKind.MacroName == TokenKind.Ifdef) = false from rfl,
      show (TokenKind.MacroName == TokenKind.Ifndef) = false from rfl,
      show (TokenKind.MacroName == TokenKind.Endif) = false from rfl,
      show (TokenKind.MacroName == TokenKind.DefineDirective) = false from rfl,
      Bool.or_self, Bool.false_eq_true, if_false] at h
    split at h
    · cases h
    · rename_i fres hfres
      split at h
      · cases h
      · rename_i ri2 acc4 vms3 fms3 heqf
        have hacc4 : ∃ e, acc4 = [(⟨TokenKind.MacroName, n⟩ : Token)] ++ e := by
          split at heqf
          · cases heqf
            exact ⟨[], by simp⟩
          · split at heqf
            · cases heqf
            · cases heqf
              exact ⟨_, rfl⟩
        obtain ⟨e4, he4⟩ := hacc4
        subst he4
        obtain ⟨d, hd⟩ := getMacrosLoop_acc_extension _ _ _ _ _ _ _ h
        exact ⟨e4 ++ d, by rw [hd]; simp⟩

/-- Witness for C9: `F!()` at stream start with `F!` a live function macro
is emitted unchanged (whereas the same invocation preceded by any token
would expand). -/
theorem c9_first_position_blind_spot_witness :
    ∃ d, (([⟨TokenKind.MacroName, "F!"⟩, ⟨TokenKind.Brace, "("⟩,
      ⟨TokenKind.Brace, ")"⟩], [], [⟨"F!", [], [⟨TokenKind.Number, "1"⟩]⟩]) :
      List Token × List ValueMacroDef × List FunctionMacroDef).1 =
      ⟨TokenKind.MacroName, "F!"⟩ :: d :=
  c9_first_position_blind_spot "F!"
    [⟨TokenKind.Brace, "("⟩, ⟨TokenKind.Brace, ")"⟩] []
    [⟨"F!", [], [⟨TokenKind.Number, "1"⟩]⟩] (by simp)
    ⟨⟨"F!", [], [⟨TokenKind.Number, "1"⟩]⟩, by simp, rfl⟩ 20
    ([⟨TokenKind.MacroName, "F!"⟩, ⟨TokenKind.Brace, "("⟩, ⟨TokenKind.Brace, ")"⟩],
      [], [⟨"F!", [], [⟨TokenKind.Number, "1"⟩]⟩]) (by rfl)

/-- C10: rendering an empty token sequence panics (`reduce(..).unwrap()` on
an empty iterator, main.rs:455-462), modelled as `none`; every non-empty
token sequence renders without panicking; and running the tool on an empty
input file reaches that panic (empty input lexes to `some []`, expands to
`[]`, and rendering panics before `out.lua` is created). -/
theorem c10_render_empty_panics :
    render_tokens_as_string [] = none ∧
    (∀ ts : List Token, ts ≠ [] → (render_tokens_as_string ts).isSome = true) ∧
    run_main 10 ["luaproc", "input.lp"] (.content "") true true true = .panicked := by
  refine ⟨rfl, ?_, by rfl⟩
  intro ts hts
  match ts with
  | [] => exact absurd rfl hts
  | t :: rest => simp [render_tokens_as_string]

/-- Witness for C10's non-empty clause at a concrete token list. -/
theorem c10_render_empty_panics_witness :
    (render_tokens_as_string [⟨TokenKind.Name, "x"⟩]).isSome = true :=
  c10_render_empty_panics.2.1 [⟨TokenKind.Name, "x"⟩] (by decide)

/-- C3 counterexample: with no file argument, `main` prints the usage line
and returns normally, so the process exits with status 0 — not non-zero as
claimed (main.rs:467-470; every error arm of `main` likewise plain-returns). -/
theorem c3_counterexample :
    exitCodeOf (run_main 10 ["luaproc"] (.content "") true true true) = some 0 := rfl

/-- C3 (amended): the process prints the documented diagnostic but exits
with status 0 on a missing argument, an open failure, a read failure, a lex
failure (after printing `Tokenization Failed`), and a create or write
failure for `out.lua`, exactly as on success; no listed failure path exits
non-zero (the only abnormal exit is the rendering panic of C10). -/
theorem c3_exit_status :
    (∀ (fuel : Nat) (args : List String) (file : FileInput) (c w s : Bool),
      args.length < 2 →
      run_main fuel args file c w s = .exited 0 [.usage] none) ∧
    (∀ (fuel : Nat) (a f : String) (r : List String) (c w s : Bool),
      run_main fuel (a :: f :: r) .openFail c w s = .exited 0 [.openErr] none) ∧
    (∀ (fuel : Nat) (a f : String) (r : List String) (c w s : Bool),
      run_main fuel (a :: f :: r) .readFail c w s = .exited 0 [.readErr] none) ∧
    (∀ (fuel : Nat) (a f : String) (r : List String) (c w s : Bool) (src : String),
      lex_whole_input ⟨foldLineContinuations src.data⟩ = none →
      run_main fuel (a :: f :: r) (.content src) c w s = .exited 0 [.lexFail] none) ∧
    (∀ (fuel : Nat) (a f : String) (r : List String) (w s : Bool) (src : String)
      (ts : List Token) (out : List Token × List ValueMacroDef × List FunctionMacroDef)
      (rnd : String),
      lex_whole_input ⟨foldLineContinuations src.data⟩ = some ts →
      get_macros fuel ts [] [] = some out →
      render_tokens_as_string out.1 = some rnd →
      run_main fuel (a :: f :: r) (.content src) false w s = .exited 0 [.createErr] none) ∧
    (∀ (fuel : Nat) (a f : String) (r : List String) (src : String)
      (ts : List Token) (out : List Token × List ValueMacroDef × List FunctionMacroDef)
      (rnd : String),
      lex_whole_input ⟨foldLineContinuations src.data⟩ = some ts →
      get_macros fuel ts [] [] = some out →
      render_tokens_as_string out.1 = some rnd →
      run_main fuel (a :: f :: r) (.content src) true false true =
        .exited 0 [.writeErr] none) ∧
    (∀ (fuel : Nat) (a f : String) (r : List String) (src : String)
      (ts : List Token) (out : List Token × List ValueMacroDef × List FunctionMacroDef)
      (rnd : String),
      lex_whole_input ⟨foldLineContinuations src.data⟩ = some ts →
      get_macros fuel ts [] [] = some out →
      render_tokens_as_string out.1 = some rnd →
      run_main fuel (a :: f :: r) (.content src) true true true =
        .exited 0 [] (some rnd)) := by
  refine ⟨?_, ?_, ?_, ?_, ?_, ?_, ?_⟩
  · intro fuel args file c w s hlen
    simp [run_main, hlen]
  · intro fuel a f r c w s
    simp [run_main]
  · intro fuel a f r c w s
    simp [run_main]
  · intro fuel a f r c w s src hlex
    simp [run_main, hlex]
  · intro fuel a f r w s src ts out rnd hlex hmac hrnd
    obtain ⟨o1, o2, o3⟩ := out
    simp [run_main, hlex, hmac, hrnd]
  · intro fuel a f r src ts out rnd hlex hmac hrnd
    obtain ⟨o1, o2, o3⟩ := out
    simp [run_main, hlex, hmac, hrnd]
  · intro fuel a f r src ts out rnd hlex hmac hrnd
    obtain ⟨o1, o2, o3⟩ := out
    simp [run_main, hlex, hmac, hrnd]

/-- Witness for the amended C3 at concrete inputs for each clause. -/
theorem c3_exit_status_witness :
    run_main 2 ["luaproc"] (.content "") true true true = .exited 0 [.usage] none ∧
    run_main 2 ["luaproc", "f"] .openFail true true true = .exited 0 [.openErr] none ∧
    run_main 2 ["luaproc", "f"] .readFail true true true = .exited 0 [.readErr] none ∧
    run_main 2 ["luaproc", "f"] (.content "'") true true true = .exited 0 [.lexFail] none ∧
    run_main 2 ["luaproc", "f"] (.content "x") false true true =
      .exited 0 [.createErr] none ∧
    run_main 2 ["luaproc", "f"] (.content "x") true false true =
      .exited 0 [.writeErr] none ∧
    run_main 2 ["luaproc", "f"] (.content "x") true true true = .exited 0 [] (some "x") :=
  ⟨c3_exit_status.1 2 ["luaproc"] (.content "") true true true (by decide),
   c3_exit_status.2.1 2 "luaproc" "f" [] true true true,
   c3_exit_status.2.2.1 2 "luaproc" "f" [] true true true,
   c3_exit_status.2.2.2.1 2 "luaproc" "f" [] true true true "'" (by rfl),
   c3_exit_status.2.2.2.2.1 2 "luaproc" "f" [] true true "x" [⟨TokenKind.Name, "x"⟩]
     ([⟨TokenKind.Name, "x"⟩], [], []) "x" (by rfl) (by rfl) (by rfl),
   c3_exit_status.2.2.2.2.2.1 2 "luaproc" "f" [] "x" [⟨TokenKind.Name, "x"⟩]
     ([⟨TokenKind.Name, "x"⟩], [], []) "x" (by rfl) (by rfl) (by rfl),
   c3_exit_status.2.2.2.2.2.2 2 "luaproc" "f" [] "x" [⟨TokenKind.Name, "x"⟩]
     ([⟨TokenKind.Name, "x"⟩], [], []) "x" (by rfl) (by rfl) (by rfl)⟩

theorem string_join_singleton (a : String) : String.join [a] = a := by
  obtain ⟨la⟩ := a
  rfl

theorem string_join_triple (a b c : String) : String.join [a, b, c] = a ++ b ++ c := by
  obtain ⟨la⟩ := a
  obtain ⟨lb⟩ := b
  obtain ⟨lc⟩ := c
  rfl

/-- The inner paste scan absorbs a whole `(## Name)*` tail. -/
theorem pasteRun_flatMap (parts : List String) (more : List String) :
    pasteRun parts (more.flatMap
      (fun v => [⟨TokenKind.Paste, "##"⟩, ⟨TokenKind.Name, v⟩])) =
    (parts ++ more, []) := by
  induction more generalizing parts with
  | nil => simp [pasteRun]
  | cons m ms ih =>
    simp only [List.flatMap_cons, List.cons_append, List.nil_append]
    rw [pasteRun]
    simp only [show (TokenKind.Paste == TokenKind.Paste) = true from rfl,
      show (TokenKind.Name == TokenKind.Name) = true from rfl, Bool.and_self, if_true]
    rw [ih (parts ++ [m])]
    simp

theorem evalPastesLoop_nil (fuel : Nat) : evalPastesLoop fuel [] = [] := by
  cases fuel <;> rfl

theorem evalPastesLoop_id (fuel : Nat) :
    ∀ ts : List Token, (∀ t ∈ ts, t.kind ≠ TokenKind.Name) →
    evalPastesLoop fuel ts = ts := by
  induction fuel with
  | zero => intro ts _; rfl
  | succ fuel ih =>
    intro ts hts
    match ts with
    | [] => rfl
    | t :: rest =>
      have ht : (t.kind == TokenKind.Name) = false :=
        beq_eq_false_iff_ne.mpr (hts t (by simp))
      simp [evalPastesLoop, ht, ih rest (fun u hu => hts u (by simp [hu]))]

theorem pasteRun_suffix_le : ∀ (n : Nat) (l : List Token), l.length ≤ n →
    ∀ parts : List String, ((pasteRun parts l).2).length ≤ l.length := by
  intro n
  induction n with
  | zero =>
    intro l hl parts
    match l, hl with
    | [], _ => simp [pasteRun]
  | succ n ih =>
    intro l hl parts
    match l with
    | [] => simp [pasteRun]
    | [t] => simp [pasteRun]
    | t1 :: t2 :: rest =>
      rw [pasteRun]
      split
      · have := ih rest (by simp at hl; omega) (parts ++ [t2.value])
        calc ((pasteRun (parts ++ [t2.value]) rest).2).length ≤ rest.length := this
          _ ≤ (t1 :: t2 :: rest).length := by simp; omega
      · simp

theorem evalPastesLoop_fuel (f1 : Nat) : ∀ (f2 : Nat) (ts : List Token),
    ts.length ≤ f1 → ts.length ≤ f2 →
    evalPastesLoop f1 ts = evalPastesLoop f2 ts := by
  induction f1 with
  | zero =>
    intro f2 ts h1 _
    match ts, h1 with
    | [], _ => rw [evalPastesLoop_nil, evalPastesLoop_nil]
  | succ f1 ih =>
    intro f2 ts h1 h2
    match ts with
    | [] => rw [evalPastesLoop_nil, evalPastesLoop_nil]
    | t :: rest =>
      match f2 with
      | 0 => simp at h2
      | f2 + 1 =>
        rw [evalPastesLoop, evalPastesLoop]
        dsimp only
        split
        · have hle := pasteRun_suffix_le rest.length rest (Nat.le_refl _) [t.value]
          rw [ih f2 (pasteRun [t.value] rest).2
            (by simp at h1; omega) (by simp at h2; omega)]
        · rw [ih f2 rest (by simp at h1; omega) (by simp at h2; omega)]

/-- The inner paste scan absorbs a `(## Name)*` run and stops at a token
pair that does not continue it. -/
theorem pasteRun_flatMap_stop (parts more : List String) (t : Token)
    (rest : List Token)
    (hstop : (t.kind == TokenKind.Paste) = false ∨
      (match rest with
       | u :: _ => (u.kind == TokenKind.Name) = false
       | [] => True)) :
    pasteRun parts (more.flatMap
      (fun v => [⟨TokenKind.Paste, "##"⟩, ⟨TokenKind.Name, v⟩]) ++ t :: rest) =
    (parts ++ more, t :: rest) := by
  induction more generalizing parts with
  | nil =>
    simp only [List.flatMap_nil, List.nil_append]
    match rest with
    | [] => simp [pasteRun]
    | u :: rest2 =>
      rw [pasteRun]
      rcases hstop with hs | hs
      · simp [hs]
      · simp only at hs
        simp [hs, Bool.and_eq_false_iff, Bool.and_comm]
  | cons m ms ih =>
    simp only [List.flatMap_cons, List.cons_append, List.nil_append, List.append_assoc]
    rw [pasteRun]
    simp only [show (TokenKind.Paste == TokenKind.Paste) = true from rfl,
      show (TokenKind.Name == TokenKind.Name) = true from rfl, Bool.and_self, if_true]
    have := ih (parts ++ [m])
    simp only [List.append_assoc] at this
    rw [this]
    simp

/-- C7: paste algebra.  (1) For any Name lexemes `A`, `B`, `C` the run
`A ## B ## C` becomes the single Name `ABC`; (2) in general a whole run
`Name (## Name)*` becomes one Name holding the concatenation of the
component lexemes with no separators; (3) a sequence with no Name token at
all is left unchanged; (4) a `##` followed by a non-Name token is left
unchanged; (5) a maximal run embedded at the front of a longer sequence is
collapsed in place and the remainder is processed independently. -/
theorem c7_paste_algebra :
    (∀ a b c : String,
      eval_pastes [⟨TokenKind.Name, a⟩, ⟨TokenKind.Paste, "##"⟩, ⟨TokenKind.Name, b⟩,
        ⟨TokenKind.Paste, "##"⟩, ⟨TokenKind.Name, c⟩] =
        [⟨TokenKind.Name, a ++ b ++ c⟩]) ∧
    (∀ (a : String) (more : List String),
      eval_pastes (⟨TokenKind.Name, a⟩ ::
        more.flatMap (fun v => [⟨TokenKind.Paste, "##"⟩, ⟨TokenKind.Name, v⟩])) =
        [⟨TokenKind.Name, String.join (a :: more)⟩]) ∧
    (∀ ts : List Token, (∀ t ∈ ts, t.kind ≠ TokenKind.Name) → eval_pastes ts = ts) ∧
    (∀ (a : String) (t : Token), t.kind ≠ TokenKind.Name →
      eval_pastes [⟨TokenKind.Name, a⟩, ⟨TokenKind.Paste, "##"⟩, t] =
        [⟨TokenKind.Name, a⟩, ⟨TokenKind.Paste, "##"⟩, t]) ∧
    (∀ (a : String) (more : List String) (t : Token) (rest : List Token),
      ((t.kind == TokenKind.Paste) = false ∨
        (match rest with
         | u :: _ => (u.kind == TokenKind.Name) = false
         | [] => True)) →
      eval_pastes (⟨TokenKind.Name, a⟩ ::
        more.flatMap (fun v => [⟨TokenKind.Paste, "##"⟩, ⟨TokenKind.Name, v⟩]) ++
        t :: rest) =
        ⟨TokenKind.Name, String.join (a :: more)⟩ :: eval_pastes (t :: rest)) := by
  have general : ∀ (a : String) (more : List String),
      eval_pastes (⟨TokenKind.Name, a⟩ ::
        more.flatMap (fun v => [⟨TokenKind.Paste, "##"⟩, ⟨TokenKind.Name, v⟩])) =
        [⟨TokenKind.Name, String.join (a :: more)⟩] := by
    intro a more
    rw [eval_pastes, evalPastesLoop]
    simp only [show (TokenKind.Name == TokenKind.Name) = true from rfl, if_true]
    rw [pasteRun_flatMap [a] more]
    simp [evalPastesLoop_nil]
  refine ⟨?_, general, ?_, ?_, ?_⟩
  · intro a b c
    have := general a [b, c]
    simp only [List.flatMap_cons, List.flatMap_nil, List.append_nil,
      List.cons_append, List.nil_append] at this
    rw [this, string_join_triple]
  · intro ts hts
    exact evalPastesLoop_id _ ts hts
  · intro a t ht
    have htb : (t.kind == TokenKind.Name) = false := beq_eq_false_iff_ne.mpr ht
    rw [eval_pastes, evalPastesLoop]
    simp only [show (TokenKind.Name == TokenKind.Name) = true from rfl, if_true]
    rw [pasteRun]
    simp only [show (TokenKind.Paste == TokenKind.Paste) = true from rfl,
      Bool.true_and, htb, if_false]
    simp [evalPastesLoop, htb, string_join_singleton, evalPastesLoop_nil,
      show (TokenKind.Paste == TokenKind.Name) = false from rfl]
  · intro a more t rest hstop
    simp only [List.cons_append]
    rw [eval_pastes, evalPastesLoop]
    dsimp only
    simp only [show (TokenKind.Name == TokenKind.Name) = true from rfl, if_true]
    rw [pasteRun_flatMap_stop [a] more t rest hstop]
    simp only [List.singleton_append]
    rw [eval_pastes]
    congr 1
    apply evalPastesLoop_fuel
    · simp
      omega
    · simp

/-- Witness for C7's conditional clauses at concrete tokens. -/
theorem c7_paste_algebra_witness :
    eval_pastes [⟨TokenKind.Number, "1"⟩, ⟨TokenKind.Paste, "##"⟩,
      ⟨TokenKind.Number, "2"⟩] =
      [⟨TokenKind.Number, "1"⟩, ⟨TokenKind.Paste, "##"⟩, ⟨TokenKind.Number, "2"⟩] ∧
    eval_pastes [⟨TokenKind.Name, "A"⟩, ⟨TokenKind.Paste, "##"⟩,
      ⟨TokenKind.Number, "1"⟩] =
      [⟨TokenKind.Name, "A"⟩, ⟨TokenKind.Paste, "##"⟩, ⟨TokenKind.Number, "1"⟩] :=
  ⟨c7_paste_algebra.2.2.1 _ (by decide),
   c7_paste_algebra.2.2.2.1 "A" ⟨TokenKind.Number, "1"⟩ (by decide)⟩
